import Mathlib

/-!
Verification of the durability and compaction core of the `db0` LSM storage
engine (block builder, tiered compaction controller, manifest log).

The Rust sources are shallowly embedded: bytes are `Nat` values below 256,
machine-integer casts (`as u16`, `as u32`) appear as explicit `% 2 ^ 16` /
`% 2 ^ 32`, `f64` ratio arithmetic of the compaction controller is modelled
exactly over `ℚ`, and fallible operations return explicit result types whose
constructors distinguish ordinary error returns from panics.
-/

set_option maxHeartbeats 4000000
set_option maxRecDepth 4000

namespace Db0

/-! ### Byte-level helpers (the `bytes` crate `put_u16`/`put_u32`/`get_u32`) -/

/-- Big-endian 2-byte encoding, as written by `BufMut::put_u16`. -/
def u16be (n : Nat) : List Nat := [n / 256 % 256, n % 256]

/-- Big-endian 4-byte encoding, as written by `BufMut::put_u32`. -/
def u32be (n : Nat) : List Nat :=
  [n / 2 ^ 24 % 256, n / 2 ^ 16 % 256, n / 2 ^ 8 % 256, n % 256]

/-- Big-endian read of the first four bytes, as `Buf::get_u32`; callers only
use it on buffers already checked to hold at least four bytes. -/
def getU32 : List Nat → Nat
  | a :: b :: c :: d :: _ => ((a * 256 + b) * 256 + c) * 256 + d
  | _ => 0

/-! ### CRC32 (the `crc32fast::hash` function: reflected CRC-32/ISO-HDLC) -/

/-- One bit-round of the reflected CRC-32 with polynomial `0xEDB88320`. -/
def crcRound (c : Nat) : Nat :=
  if c % 2 = 1 then c / 2 ^^^ 0xEDB88320 else c / 2

/-- Eight bit-rounds, i.e. the per-byte mixing of the CRC-32 state. -/
def crcRound8 (c : Nat) : Nat :=
  crcRound (crcRound (crcRound (crcRound (crcRound (crcRound (crcRound (crcRound c)))))))

/-- Absorb one input byte into the CRC-32 state. -/
def crcStep (s b : Nat) : Nat := crcRound8 (s ^^^ b)

/-- Fold the CRC-32 state over a byte sequence. -/
def crcFold (s : Nat) : List Nat → Nat
  | [] => s
  | b :: rest => crcFold (crcStep s b) rest

/-- The function `crc32fast::hash`: initial state and final xor-out are `0xFFFFFFFF`. -/
def crc32 (l : List Nat) : Nat := crcFold 0xFFFFFFFF l ^^^ 0xFFFFFFFF

/-! ### Tiered compaction data model (`src/compact/tiered.rs`)

A snapshot's `levels` field is the ordered list of `(tier_id, table_ids)`
pairs; the embedding passes that list directly instead of the whole
`LsmStorageState` (the controller reads no other field of the snapshot). -/

structure TieredCompactionTask where
  tiers : List (Nat × List Nat)
  bottom_tier_included : Bool
deriving DecidableEq

structure TieredCompactionOptions where
  num_tiers : Nat
  max_size_amplification_percent : Nat
  size_ratio : Nat
  min_merge_width : Nat
  max_merge_width : Option Nat
deriving DecidableEq

/-- Table count of one tier. -/
def tierSize (t : Nat × List Nat) : Nat := t.2.length

/-- Total table count of a list of tiers. -/
def sumSizes (ls : List (Nat × List Nat)) : Nat := (ls.map tierSize).sum

/-- The local `size` in `generate_compaction_task`: total table count of all tiers
except the last one. -/
def sumExceptLast (ls : List (Nat × List Nat)) : Nat := sumSizes ls.dropLast

/-- The space-amplification ratio `size as f64 / bottom as f64 * 100.0`,
modelled exactly over `ℚ` (an empty snapshot yields the junk value `0`; the
Rust code would panic on `last().unwrap()` there). -/
def spaceAmpRatio (ls : List (Nat × List Nat)) : ℚ :=
  (sumExceptLast ls : ℚ) / (tierSize (ls.getLastD (0, [])) : ℚ) * 100

/-- The size-ratio scan of `generate_compaction_task`: `i` is the index of
the head of `rest` inside the full level list, and `prev` is the running
`prev_size` sum, which each scanned tier joins only after its own check. -/
def scanTail (opts : TieredCompactionOptions) : Nat → ℚ → List (Nat × List Nat) → Option Nat
  | _, _, [] => none
  | i, prev, t :: rest =>
    if (tierSize t : ℚ) / prev > (100 + (opts.size_ratio : ℚ)) / 100 ∧ opts.min_merge_width ≤ i
    then some i
    else scanTail opts (i + 1) (prev + (tierSize t : ℚ)) rest

/-- The method `TieredCompactionController::generate_compaction_task`.  `usize::MAX`
(the default when `max_merge_width` is `None`) is `2 ^ 64 - 1`. -/
def generate_compaction_task (opts : TieredCompactionOptions)
    (levels : List (Nat × List Nat)) : Option TieredCompactionTask :=
  if levels.length < opts.num_tiers then none
  else if spaceAmpRatio levels ≥ (opts.max_size_amplification_percent : ℚ) then
    some ⟨levels, true⟩
  else
    match scanTail opts 1 (tierSize (levels.headD (0, [])) : ℚ) levels.tail with
    | some i => some ⟨levels.take i, false⟩
    | none =>
      let maxMergeIters := (opts.max_merge_width.getD (2 ^ 64 - 1)).min levels.length
      some ⟨levels.take maxMergeIters, decide (maxMergeIters ≥ levels.length)⟩

/-- The size-ratio trigger condition at tier index `i` (for `1 ≤ i`): the
running previous-size sum at the moment index `i` is checked is the total
size of tiers `0 .. i-1`, because each scanned tier is added to the sum only
after its own check. -/
def sizeRatioCond (opts : TieredCompactionOptions) (levels : List (Nat × List Nat))
    (i : Nat) : Prop :=
  (tierSize (levels.getD i (0, [])) : ℚ) / (sumSizes (levels.take i) : ℚ)
      > (100 + (opts.size_ratio : ℚ)) / 100
  ∧ opts.min_merge_width ≤ i

/-! ### `apply_compaction_result` -/

/-- Key list of an association list of tiers. -/
def keys (m : List (Nat × List Nat)) : List Nat := m.map (·.1)

/-- A `HashMap` lookup: value of the entry with the given key, if any. -/
def lookupFiles (tid : Nat) (m : List (Nat × List Nat)) : Option (List Nat) :=
  (m.find? (fun q => q.1 == tid)).map (·.2)

/-- The operation `HashMap::remove`: drop every entry with the given key (the map built by
`collect` holds at most one). -/
def removeKey (tid : Nat) (m : List (Nat × List Nat)) : List (Nat × List Nat) :=
  m.filter (fun q => q.1 != tid)

/-- One `HashMap` insertion with overwrite-on-collision semantics. -/
def insertKV (m : List (Nat × List Nat)) (p : Nat × List Nat) : List (Nat × List Nat) :=
  m.filter (fun q => q.1 != p.1) ++ [p]

/-- The `tier_to_remove` map `collect`ed from the task's tiers. -/
def buildMap (ts : List (Nat × List Nat)) : List (Nat × List Nat) :=
  ts.foldl insertKV []

/-- Result of `apply_compaction_result`.  `assertFail` is the
`assert_eq!(files, ffiles)` panic, `notFound` the
`unreachable!("some tiers not found??")` abort, and `emptyOutCrash` the
index panic of `_output[0]` on an empty output slice. -/
inductive ApplyResult
  | ok (levels : List (Nat × List Nat)) (removed : List Nat)
  | assertFail
  | notFound
  | emptyOutCrash
deriving DecidableEq

/-- Map the success case of an `ApplyResult`, keeping aborts unchanged. -/
def ApplyResult.mapOk
    (f : List (Nat × List Nat) → List Nat → List (Nat × List Nat) × List Nat) :
    ApplyResult → ApplyResult
  | .ok ls rm => .ok (f ls rm).1 (f ls rm).2
  | x => x

/-- Holds exactly on the two invariant-violation aborts (`assert_eq!` and
`unreachable!`). -/
def ApplyResult.isFatal : ApplyResult → Bool
  | .assertFail => true
  | .notFound => true
  | _ => false

/-- The walk inside `apply_compaction_result`: `m` is the remaining
`tier_to_remove` map and `added` the `new_tier_added` flag. -/
def applyLoop (out : List Nat) : List (Nat × List Nat) → List (Nat × List Nat) → Bool → ApplyResult
  | [], m, _ => if m = [] then .ok [] [] else .notFound
  | (tid, files) :: rest, m, added =>
    match lookupFiles tid m with
    | some ffiles =>
      if files = ffiles then
        if removeKey tid m = [] ∧ added = false then
          match out with
          | [] => .emptyOutCrash
          | o :: _ =>
            (applyLoop out rest (removeKey tid m) true).mapOk
              (fun ls rm => ((o, out) :: ls, ffiles ++ rm))
        else
          (applyLoop out rest (removeKey tid m) added).mapOk
            (fun ls rm => (ls, ffiles ++ rm))
      else .assertFail
    | none =>
      if m = [] ∧ added = false then
        match out with
        | [] => .emptyOutCrash
        | o :: _ =>
          (applyLoop out rest m true).mapOk
            (fun ls rm => ((tid, files) :: (o, out) :: ls, rm))
      else
        (applyLoop out rest m added).mapOk
          (fun ls rm => ((tid, files) :: ls, rm))

/-- The method `TieredCompactionController::apply_compaction_result` (the new snapshot
is returned through `ApplyResult.ok` together with the removed table ids). -/
def apply_compaction_result (levels : List (Nat × List Nat))
    (task : TieredCompactionTask) (out : List Nat) : ApplyResult :=
  applyLoop out levels (buildMap task.tiers) false

/-- The walk as the specification describes it: drop any tier whose id is in
the pending task set (recording its table ids as removed, in snapshot
order), keep the rest in order, and at the point where the pending set
becomes fully consumed splice in one new tier keyed by the first output
table id and containing all output table ids. -/
def applySpec (out : List Nat) : List Nat → List (Nat × List Nat) → List (Nat × List Nat) × List Nat
  | _, [] => ([], [])
  | pending, (tid, files) :: rest =>
    if tid ∈ pending then
      let pending' := pending.erase tid
      let r := applySpec out pending' rest
      (if pending' = [] then (out.headD 0, out) :: r.1 else r.1, files ++ r.2)
    else
      let r := applySpec out pending rest
      ((tid, files) :: r.1, r.2)

/-! ### Manifest (`src/manifest.rs`)

`ManifestRecord` and its frame format are embedded directly.  The payload
serialization is external-crate code (`serde_json`), so it is modelled from
the spec (see `encRecord`). -/

/-- Modelled from the spec: `CompactionTask` lives outside the excerpted
sources; the spec's record schema fixes it to the tiered-compaction task
shape, so the record's task field is a `TieredCompactionTask`. -/
inductive ManifestRecord
  | flush (id : Nat)
  | newMemtable (id : Nat)
  | compaction (task : TieredCompactionTask) (output : List Nat)
deriving DecidableEq

/-- Base-255 digits of `n`, little-endian, with explicit structural fuel
(`fuel ≥ n` suffices) so that the definition evaluates by kernel reduction. -/
def digitsBase255 : Nat → Nat → List Nat
  | 0, _ => []
  | fuel + 1, n => if n = 0 then [] else n % 255 :: digitsBase255 fuel (n / 255)

/-- Self-delimiting byte encoding of a natural number: its base-255 digits
(each below 255) followed by the terminator byte 255. -/
def encNat (n : Nat) : List Nat := digitsBase255 n n ++ [255]

/-- Value of a little-endian base-255 digit list. -/
def undigits255 : List Nat → Nat
  | [] => 0
  | d :: ds => d + 255 * undigits255 ds

/-- Read one `encNat`-encoded number from the front of a buffer. -/
def parseNat (l : List Nat) : Option (Nat × List Nat) :=
  match l.dropWhile (fun d => d != 255) with
  | [] => none
  | _ :: rest => some (undigits255 (l.takeWhile (fun d => d != 255)), rest)

/-- Length-prefixed list of numbers. -/
def encNatList (l : List Nat) : List Nat := encNat l.length ++ (l.map encNat).flatten

/-- Read `k` encoded numbers. -/
def parseNats : Nat → List Nat → Option (List Nat × List Nat)
  | 0, l => some ([], l)
  | k + 1, l => do
    let (x, l1) ← parseNat l
    let (xs, l2) ← parseNats k l1
    some (x :: xs, l2)

/-- Read one `encNatList`. -/
def parseNatList (l : List Nat) : Option (List Nat × List Nat) := do
  let (n, l1) ← parseNat l
  parseNats n l1

/-- One `(tier_id, table_ids)` pair. -/
def encTier (t : Nat × List Nat) : List Nat := encNat t.1 ++ encNatList t.2

/-- Read one `encTier`. -/
def parseTier (l : List Nat) : Option ((Nat × List Nat) × List Nat) := do
  let (tid, l1) ← parseNat l
  let (files, l2) ← parseNatList l1
  some ((tid, files), l2)

/-- Length-prefixed tier list. -/
def encTierList (ts : List (Nat × List Nat)) : List Nat :=
  encNat ts.length ++ (ts.map encTier).flatten

/-- Read `k` encoded tiers. -/
def parseTiers : Nat → List Nat → Option (List (Nat × List Nat) × List Nat)
  | 0, l => some ([], l)
  | k + 1, l => do
    let (t, l1) ← parseTier l
    let (ts, l2) ← parseTiers k l1
    some (t :: ts, l2)

/-- Read one `encTierList`. -/
def parseTierList (l : List Nat) : Option (List (Nat × List Nat) × List Nat) := do
  let (n, l1) ← parseNat l
  parseTiers n l1

/-- One boolean byte. -/
def encBool (b : Bool) : List Nat := [if b then 1 else 0]

/-- Read one `encBool`. -/
def parseBool : List Nat → Option (Bool × List Nat)
  | 0 :: rest => some (false, rest)
  | 1 :: rest => some (true, rest)
  | _ => none

/-- A task: its tier list followed by the bottom-tier flag. -/
def encTask (t : TieredCompactionTask) : List Nat :=
  encTierList t.tiers ++ encBool t.bottom_tier_included

/-- Modelled from the spec: `serde_json::to_vec` of a `ManifestRecord`, the
"JSON-or-equivalent serialized record" — a deterministic, self-delimiting
tagged byte serialization of the closed record variants
`Flush` / `NewMemtable` / `Compaction(task, output_table_ids)`. -/
def encRecord : ManifestRecord → List Nat
  | .flush n => 0 :: encNat n
  | .newMemtable n => 1 :: encNat n
  | .compaction t out => 2 :: (encTask t ++ encNatList out)

/-- Modelled from the spec: the corresponding deserializer, reading one
record from the front of a buffer. -/
def parseRecord : List Nat → Option (ManifestRecord × List Nat)
  | 0 :: l => (parseNat l).map (fun p => (.flush p.1, p.2))
  | 1 :: l => (parseNat l).map (fun p => (.newMemtable p.1, p.2))
  | 2 :: l => do
    let (ts, l1) ← parseTierList l
    let (bt, l2) ← parseBool l1
    let (out, l3) ← parseNats' l2
    some (.compaction ⟨ts, bt⟩ out, l3)
  | _ => none
where parseNats' (l : List Nat) : Option (List Nat × List Nat) := parseNatList l

/-- The call `serde_json::from_slice`: the whole slice must be one record with no
trailing bytes. -/
def decodeRecordFull (l : List Nat) : Option ManifestRecord :=
  match parseRecord l with
  | some (r, []) => some r
  | _ => none

/-- Error values returned (via `?` / `bail!`) by `Manifest::recover`. -/
inductive RecoverErr
  | deserialize
  | checksum
deriving DecidableEq

/-- Result of replaying a manifest buffer: a record list, a typed error, or
a panic (`crash`) caused by reading past the end of the buffer. -/
inductive RecoverResult
  | ok (records : List ManifestRecord)
  | err (e : RecoverErr)
  | crash
deriving DecidableEq

/-- Holds exactly on the error returns. -/
def RecoverResult.isErr : RecoverResult → Bool
  | .err _ => true
  | _ => false

/-- The replay loop of `Manifest::recover`: repeatedly read a 4-byte length,
the record bytes (deserialized with `decodeRecordFull`), and a 4-byte
checksum compared against `crc32` of the record bytes.  `Buf::get_u32` on
fewer than four remaining bytes and slicing past the end both panic, which
the model records as `.crash`. -/
def recoverLoop (buf : List Nat) : RecoverResult :=
  if buf = [] then .ok []
  else if buf.length < 4 then .crash
  else if getU32 buf > (buf.drop 4).length then .crash
  else
    match decodeRecordFull ((buf.drop 4).take (getU32 buf)) with
    | none => .err .deserialize
    | some r =>
      if ((buf.drop 4).drop (getU32 buf)).length < 4 then .crash
      else if getU32 ((buf.drop 4).drop (getU32 buf))
          ≠ crc32 ((buf.drop 4).take (getU32 buf)) then .err .checksum
      else
        match recoverLoop (((buf.drop 4).drop (getU32 buf)).drop 4) with
        | .ok rs => .ok (r :: rs)
        | other => other
termination_by buf.length
decreasing_by
  simp only [List.length_drop]
  have : buf.length ≠ 0 := by
    intro h0
    exact ‹¬buf = []› (List.length_eq_zero.mp h0)
  omega

/-- The frame appended by `Manifest::add_record_when_init`:
`[len as u32][serialized bytes][crc32 of those bytes]`. -/
def recordFrame (r : ManifestRecord) : List Nat :=
  u32be ((encRecord r).length % 2 ^ 32) ++ encRecord r ++ u32be (crc32 (encRecord r))

/-- File contents after appending each record in order via
`add_record_when_init`, starting from the empty file made by `create`. -/
def manifestFile (rs : List ManifestRecord) : List Nat := (rs.map recordFrame).flatten

/-- The frame of record `r` with byte `p` of its serialized payload replaced
by `b'`: the length prefix and the stored checksum are those of the intact
frame, only the payload byte changes. -/
def corruptFrame (r : ManifestRecord) (p b' : Nat) : List Nat :=
  u32be ((encRecord r).length % 2 ^ 32)
    ++ ((encRecord r).set p b' ++ u32be (crc32 (encRecord r)))

/-- Structural well-formedness of a manifest buffer: every
`[length][payload][checksum]` frame is complete (this is exactly the
condition under which the replay loop never over-reads). -/
def framesOk (buf : List Nat) : Bool :=
  if buf = [] then true
  else if buf.length < 4 then false
  else if getU32 buf > (buf.drop 4).length then false
  else if ((buf.drop 4).drop (getU32 buf)).length < 4 then false
  else framesOk (((buf.drop 4).drop (getU32 buf)).drop 4)
termination_by buf.length
decreasing_by
  simp only [List.length_drop]
  have : buf.length ≠ 0 := by
    intro h0
    exact ‹¬buf = []› (List.length_eq_zero.mp h0)
  omega

/-! ### Block builder (`src/block/builder.rs`)

`SIZEOF_U16 = 2` and the `Block` struct come from the block module's
declarations (outside the excerpt); the spec fixes both: a block is its data
bytes plus its `u16` offsets. -/

structure Block where
  data : List Nat
  offsets : List Nat
deriving DecidableEq

structure BlockBuilder where
  offsets : List Nat
  data : List Nat
  block_size : Nat
  first_key : List Nat
deriving DecidableEq

/-- The constructor `BlockBuilder::new`. -/
def BlockBuilder.new (block_size : Nat) : BlockBuilder :=
  ⟨[], [], block_size, []⟩

/-- The method `BlockBuilder::estimated_size`: data section + offset section + the
2-byte element count. -/
def BlockBuilder.estimated_size (b : BlockBuilder) : Nat :=
  b.data.length + b.offsets.length * 2 + 2

/-- The method `BlockBuilder::is_empty`. -/
def BlockBuilder.is_empty (b : BlockBuilder) : Bool := b.data.isEmpty

/-- The method `BlockBuilder::add`.  The `as u16` casts on the pushed offset and the
two length fields appear as `% 2 ^ 16`. -/
def BlockBuilder.add (b : BlockBuilder) (key value : List Nat) : Bool × BlockBuilder :=
  if b.estimated_size + key.length + value.length + 3 * 2 ≥ b.block_size ∧ ¬b.is_empty
  then (false, b)
  else
    (true,
      { offsets := b.offsets ++ [b.data.length % 2 ^ 16]
        data := b.data ++ u16be (key.length % 2 ^ 16) ++ key
                  ++ u16be (value.length % 2 ^ 16) ++ value
        block_size := b.block_size
        first_key := if b.data.length = 0 then key else b.first_key })

/-- The method `BlockBuilder::build`; `none` is the `panic!("block should not be empty!")`. -/
def BlockBuilder.build (b : BlockBuilder) : Option Block :=
  if b.is_empty then none else some ⟨b.data, b.offsets⟩

/-- Run a sequence of `add` calls, reporting whether all were accepted
(a rejected call leaves the builder untouched, exactly as in the source). -/
def addAll (b : BlockBuilder) : List (List Nat × List Nat) → Bool × BlockBuilder
  | [] => (true, b)
  | (k, v) :: rest =>
    let step := b.add k v
    let more := addAll step.2 rest
    (step.1 && more.1, more.2)

/-- The untruncated entry encoding the spec describes:
`[2-byte key length][key][2-byte value length][value]`. -/
def rawEntry (k v : List Nat) : List Nat :=
  u16be k.length ++ k ++ u16be v.length ++ v

/-- Concatenation of the encoded entries of a pair sequence. -/
def encEntries (ps : List (List Nat × List Nat)) : List Nat :=
  (ps.map (fun p => rawEntry p.1 p.2)).flatten

/-- True starting byte offsets of each entry, measured from `off`. -/
def startsFrom (off : Nat) : List (List Nat × List Nat) → List Nat
  | [] => []
  | (k, v) :: rest => off :: startsFrom (off + (rawEntry k v).length) rest

/-- Byte-lexicographic strict order on keys. -/
def keyLt (a b : List Nat) : Prop := List.Lex (· < ·) a b

/-- Strictly increasing key sequence. -/
def strictKeys (ps : List (List Nat × List Nat)) : Prop :=
  List.Pairwise (fun p q => keyLt p.1 q.1) ps

/-! ## Lemmas: byte encodings -/

theorem u32be_length (n : Nat) : (u32be n).length = 4 := rfl

theorem getU32_u32be_append (n : Nat) (rest : List Nat) (h : n < 2 ^ 32) :
    getU32 (u32be n ++ rest) = n := by
  simp only [u32be, List.cons_append, List.nil_append, getU32]
  omega

theorem u32be_bytes_lt (n : Nat) : ∀ b ∈ u32be n, b < 256 := by
  intro b hb
  simp only [u32be, List.mem_cons, List.not_mem_nil, or_false] at hb
  rcases hb with rfl | rfl | rfl | rfl <;> omega

/-! ## Lemmas: CRC-32 -/

theorem crcRound_lt {c : Nat} (h : c < 2 ^ 32) : crcRound c < 2 ^ 32 := by
  unfold crcRound
  split
  · exact Nat.xor_lt_two_pow (by omega) (by norm_num)
  · omega

theorem crcRound_inj {c₁ c₂ : Nat} (h₁ : c₁ < 2 ^ 32) (h₂ : c₂ < 2 ^ 32)
    (h : crcRound c₁ = crcRound c₂) : c₁ = c₂ := by
  unfold crcRound at h
  split at h <;> split at h
  · have := Nat.xor_cancel_right 0xEDB88320 (c₁ / 2)
    have := Nat.xor_cancel_right 0xEDB88320 (c₂ / 2)
    have hdiv : c₁ / 2 = c₂ / 2 := by
      have := congrArg (· ^^^ 0xEDB88320) h
      simpa [Nat.xor_cancel_right] using this
    omega
  · exfalso
    have hbit := congrArg (Nat.testBit · 31) h
    have hc1 : (c₁ / 2).testBit 31 = false := Nat.testBit_lt_two_pow (by omega)
    have hc2 : (c₂ / 2).testBit 31 = false := Nat.testBit_lt_two_pow (by omega)
    have hp : (0xEDB88320 : Nat).testBit 31 = true := by decide
    simp [Nat.testBit_xor, hc1, hc2, hp] at hbit
  · exfalso
    have hbit := congrArg (Nat.testBit · 31) h
    have hc1 : (c₁ / 2).testBit 31 = false := Nat.testBit_lt_two_pow (by omega)
    have hc2 : (c₂ / 2).testBit 31 = false := Nat.testBit_lt_two_pow (by omega)
    have hp : (0xEDB88320 : Nat).testBit 31 = true := by decide
    simp [Nat.testBit_xor, hc1, hc2, hp] at hbit
  · omega

theorem crcRound8_lt {c : Nat} (h : c < 2 ^ 32) : crcRound8 c < 2 ^ 32 := by
  unfold crcRound8
  exact crcRound_lt (crcRound_lt (crcRound_lt (crcRound_lt
    (crcRound_lt (crcRound_lt (crcRound_lt (crcRound_lt h)))))))

theorem crcRound8_inj {c₁ c₂ : Nat} (h₁ : c₁ < 2 ^ 32) (h₂ : c₂ < 2 ^ 32)
    (h : crcRound8 c₁ = crcRound8 c₂) : c₁ = c₂ := by
  unfold crcRound8 at h
  have l1 := crcRound_lt h₁
  have l2 := crcRound_lt l1
  have l3 := crcRound_lt l2
  have l4 := crcRound_lt l3
  have l5 := crcRound_lt l4
  have l6 := crcRound_lt l5
  have l7 := crcRound_lt l6
  have r1 := crcRound_lt h₂
  have r2 := crcRound_lt r1
  have r3 := crcRound_lt r2
  have r4 := crcRound_lt r3
  have r5 := crcRound_lt r4
  have r6 := crcRound_lt r5
  have r7 := crcRound_lt r6
  exact crcRound_inj h₁ h₂ (crcRound_inj l1 r1 (crcRound_inj l2 r2 (crcRound_inj l3 r3
    (crcRound_inj l4 r4 (crcRound_inj l5 r5 (crcRound_inj l6 r6 (crcRound_inj l7 r7 h)))))))

theorem crcStep_lt {s b : Nat} (hs : s < 2 ^ 32) (hb : b < 2 ^ 32) :
    crcStep s b < 2 ^ 32 :=
  crcRound8_lt (Nat.xor_lt_two_pow hs hb)

theorem crcStep_inj_state {s₁ s₂ b : Nat} (hs₁ : s₁ < 2 ^ 32) (hs₂ : s₂ < 2 ^ 32)
    (hb : b < 2 ^ 32) (h : crcStep s₁ b = crcStep s₂ b) : s₁ = s₂ := by
  unfold crcStep at h
  have := crcRound8_inj (Nat.xor_lt_two_pow hs₁ hb) (Nat.xor_lt_two_pow hs₂ hb) h
  have := congrArg (· ^^^ b) this
  simpa [Nat.xor_cancel_right] using this

theorem crcStep_inj_byte {s b₁ b₂ : Nat} (hs : s < 2 ^ 32) (hb₁ : b₁ < 2 ^ 32)
    (hb₂ : b₂ < 2 ^ 32) (h : crcStep s b₁ = crcStep s b₂) : b₁ = b₂ := by
  unfold crcStep at h
  have := crcRound8_inj (Nat.xor_lt_two_pow hs hb₁) (Nat.xor_lt_two_pow hs hb₂) h
  calc b₁ = s ^^^ (s ^^^ b₁) := (Nat.xor_cancel_left s b₁).symm
    _ = s ^^^ (s ^^^ b₂) := by rw [this]
    _ = b₂ := Nat.xor_cancel_left s b₂

theorem crcFold_lt {s : Nat} {l : List Nat} (hs : s < 2 ^ 32)
    (hl : ∀ b ∈ l, b < 2 ^ 32) : crcFold s l < 2 ^ 32 := by
  induction l generalizing s with
  | nil => exact hs
  | cons b rest ih =>
    exact ih (crcStep_lt hs (hl b (by simp))) (fun x hx => hl x (by simp [hx]))

theorem crcFold_inj {l : List Nat} {s₁ s₂ : Nat} (hs₁ : s₁ < 2 ^ 32)
    (hs₂ : s₂ < 2 ^ 32) (hl : ∀ b ∈ l, b < 2 ^ 32)
    (h : crcFold s₁ l = crcFold s₂ l) : s₁ = s₂ := by
  induction l generalizing s₁ s₂ with
  | nil => exact h
  | cons b rest ih =>
    have hb : b < 2 ^ 32 := hl b (by simp)
    have := ih (crcStep_lt hs₁ hb) (crcStep_lt hs₂ hb)
      (fun x hx => hl x (by simp [hx])) h
    exact crcStep_inj_state hs₁ hs₂ hb this

theorem crcFold_append (s : Nat) (l₁ l₂ : List Nat) :
    crcFold s (l₁ ++ l₂) = crcFold (crcFold s l₁) l₂ := by
  induction l₁ generalizing s with
  | nil => rfl
  | cons b rest ih => simp [crcFold, ih]

theorem crc32_lt {l : List Nat} (hl : ∀ b ∈ l, b < 2 ^ 32) : crc32 l < 2 ^ 32 :=
  Nat.xor_lt_two_pow (crcFold_lt (by norm_num) hl) (by norm_num)

/-- CRC-32 detects every single-byte substitution. -/
theorem crc32_single_byte_ne {pre suf : List Nat} {b₁ b₂ : Nat}
    (hpre : ∀ b ∈ pre, b < 2 ^ 32) (hsuf : ∀ b ∈ suf, b < 2 ^ 32)
    (hb₁ : b₁ < 2 ^ 32) (hb₂ : b₂ < 2 ^ 32) (hne : b₁ ≠ b₂) :
    crc32 (pre ++ b₁ :: suf) ≠ crc32 (pre ++ b₂ :: suf) := by
  intro h
  unfold crc32 at h
  have hfold : crcFold 0xFFFFFFFF (pre ++ b₁ :: suf) = crcFold 0xFFFFFFFF (pre ++ b₂ :: suf) := by
    have := congrArg (· ^^^ 0xFFFFFFFF) h
    simpa [Nat.xor_cancel_right] using this
  rw [crcFold_append, crcFold_append] at hfold
  have hp : crcFold 0xFFFFFFFF pre < 2 ^ 32 := crcFold_lt (by norm_num) hpre
  have hfold' : crcFold (crcStep (crcFold 0xFFFFFFFF pre) b₁) suf
      = crcFold (crcStep (crcFold 0xFFFFFFFF pre) b₂) suf := by
    simpa [crcFold] using hfold
  have := crcFold_inj (crcStep_lt hp hb₁) (crcStep_lt hp hb₂) hsuf hfold'
  exact hne (crcStep_inj_byte hp hb₁ hb₂ this)

/-! ## Lemmas: record serialization round-trip -/

theorem digitsBase255_lt : ∀ (fuel n : Nat), ∀ d ∈ digitsBase255 fuel n, d < 255 := by
  intro fuel
  induction fuel with
  | zero => intro n d hd; simp [digitsBase255] at hd
  | succ fuel ih =>
    intro n d hd
    unfold digitsBase255 at hd
    split at hd
    · simp at hd
    · rcases List.mem_cons.mp hd with rfl | hmem
      · omega
      · exact ih _ d hmem

theorem undigits_digits : ∀ (fuel n : Nat), n ≤ fuel →
    undigits255 (digitsBase255 fuel n) = n := by
  intro fuel
  induction fuel with
  | zero => intro n hn; interval_cases n; rfl
  | succ fuel ih =>
    intro n hn
    unfold digitsBase255
    split
    · rename_i h0
      subst h0
      rfl
    · rename_i hn0
      have : n / 255 ≤ fuel := by omega
      simp [undigits255, ih _ this]
      omega

theorem takeWhile_append_terminator {l t : List Nat}
    (hl : ∀ d ∈ l, d < 255) :
    (l ++ 255 :: t).takeWhile (fun d => d != 255) = l ∧
      (l ++ 255 :: t).dropWhile (fun d => d != 255) = 255 :: t := by
  induction l with
  | nil => simp [List.takeWhile, List.dropWhile]
  | cons d rest ih =>
    have hd : d < 255 := hl d (by simp)
    have hne : (d != 255) = true := by simp; omega
    have := ih (fun x hx => hl x (by simp [hx]))
    simp [List.takeWhile, List.dropWhile, hne, this.1, this.2]

theorem parseNat_enc (n : Nat) (rest : List Nat) :
    parseNat (encNat n ++ rest) = some (n, rest) := by
  unfold parseNat encNat
  have hsplit := takeWhile_append_terminator (l := digitsBase255 n n) (t := rest)
    (digitsBase255_lt n n)
  rw [List.append_assoc, List.singleton_append]
  rw [hsplit.1, hsplit.2, undigits_digits n n (le_refl n)]

theorem encNat_bytes_lt (n : Nat) : ∀ b ∈ encNat n, b < 256 := by
  intro b hb
  unfold encNat at hb
  rcases List.mem_append.mp hb with h | h
  · exact Nat.lt_succ_of_lt (digitsBase255_lt n n b h)
  · simp at h; omega

theorem parseNats_enc (l : List Nat) (rest : List Nat) :
    parseNats l.length ((l.map encNat).flatten ++ rest) = some (l, rest) := by
  induction l generalizing rest with
  | nil => simp [parseNats]
  | cons x xs ih =>
    simp only [List.length_cons, List.map_cons, List.flatten_cons, List.append_assoc]
    unfold parseNats
    rw [parseNat_enc x ((xs.map encNat).flatten ++ rest)]
    simp [ih rest]

theorem parseNatList_enc (l : List Nat) (rest : List Nat) :
    parseNatList (encNatList l ++ rest) = some (l, rest) := by
  unfold parseNatList encNatList
  rw [List.append_assoc, parseNat_enc]
  simp [parseNats_enc l rest]

theorem encNatList_bytes_lt (l : List Nat) : ∀ b ∈ encNatList l, b < 256 := by
  intro b hb
  unfold encNatList at hb
  rcases List.mem_append.mp hb with h | h
  · exact encNat_bytes_lt _ b h
  · obtain ⟨piece, hpiece, hbp⟩ := List.mem_flatten.mp h
    obtain ⟨x, _, rfl⟩ := List.mem_map.mp hpiece
    exact encNat_bytes_lt _ b hbp

theorem parseTier_enc (t : Nat × List Nat) (rest : List Nat) :
    parseTier (encTier t ++ rest) = some (t, rest) := by
  unfold parseTier encTier
  rw [List.append_assoc, parseNat_enc]
  simp [parseNatList_enc]

theorem parseTiers_enc (ts : List (Nat × List Nat)) (rest : List Nat) :
    parseTiers ts.length ((ts.map encTier).flatten ++ rest) = some (ts, rest) := by
  induction ts generalizing rest with
  | nil => simp [parseTiers]
  | cons x xs ih =>
    simp only [List.length_cons, List.map_cons, List.flatten_cons, List.append_assoc]
    unfold parseTiers
    rw [parseTier_enc x ((xs.map encTier).flatten ++ rest)]
    simp [ih rest]

theorem parseTierList_enc (ts : List (Nat × List Nat)) (rest : List Nat) :
    parseTierList (encTierList ts ++ rest) = some (ts, rest) := by
  unfold parseTierList encTierList
  rw [List.append_assoc, parseNat_enc]
  simp [parseTiers_enc ts rest]

theorem encTierList_bytes_lt (ts : List (Nat × List Nat)) :
    ∀ b ∈ encTierList ts, b < 256 := by
  intro b hb
  unfold encTierList at hb
  rcases List.mem_append.mp hb with h | h
  · exact encNat_bytes_lt _ b h
  · obtain ⟨piece, hpiece, hbp⟩ := List.mem_flatten.mp h
    obtain ⟨x, _, rfl⟩ := List.mem_map.mp hpiece
    unfold encTier at hbp
    rcases List.mem_append.mp hbp with h2 | h2
    · exact encNat_bytes_lt _ b h2
    · exact encNatList_bytes_lt _ b h2

theorem parseBool_enc (b : Bool) (rest : List Nat) :
    parseBool (encBool b ++ rest) = some (b, rest) := by
  cases b <;> rfl

theorem parseRecord_enc (r : ManifestRecord) (rest : List Nat) :
    parseRecord (encRecord r ++ rest) = some (r, rest) := by
  cases r with
  | flush n =>
    simp only [encRecord, List.cons_append, parseRecord]
    rw [parseNat_enc n rest]
    rfl
  | newMemtable n =>
    simp only [encRecord, List.cons_append, parseRecord]
    rw [parseNat_enc n rest]
    rfl
  | compaction t out =>
    simp only [encRecord, List.cons_append, parseRecord, encTask, List.append_assoc]
    rw [parseTierList_enc]
    simp only [Option.bind_eq_bind, Option.some_bind]
    rw [parseBool_enc]
    simp only [Option.some_bind]
    unfold parseRecord.parseNats'
    rw [parseNatList_enc]
    rfl

theorem decodeRecordFull_enc (r : ManifestRecord) :
    decodeRecordFull (encRecord r) = some r := by
  unfold decodeRecordFull
  have := parseRecord_enc r []
  rw [List.append_nil] at this
  rw [this]

theorem encRecord_bytes_lt (r : ManifestRecord) : ∀ b ∈ encRecord r, b < 256 := by
  intro b hb
  cases r with
  | flush n =>
    rcases List.mem_cons.mp hb with rfl | h
    · omega
    · exact encNat_bytes_lt _ b h
  | newMemtable n =>
    rcases List.mem_cons.mp hb with rfl | h
    · omega
    · exact encNat_bytes_lt _ b h
  | compaction t out =>
    rcases List.mem_cons.mp hb with rfl | h
    · omega
    · rcases List.mem_append.mp h with h2 | h2
      · unfold encTask at h2
        rcases List.mem_append.mp h2 with h3 | h3
        · exact encTierList_bytes_lt _ b h3
        · unfold encBool at h3
          rcases h3 with h3
          split at h3 <;> simp at h3 <;> omega
      · exact encNatList_bytes_lt _ b h2

/-! ## Lemmas: manifest replay -/

theorem encRecord_bytes_lt32 (r : ManifestRecord) : ∀ b ∈ encRecord r, b < 2 ^ 32 :=
  fun b hb => lt_trans (encRecord_bytes_lt r b hb) (by norm_num)

theorem manifestFile_cons (r : ManifestRecord) (rs : List ManifestRecord) :
    manifestFile (r :: rs) = recordFrame r ++ manifestFile rs := by
  simp [manifestFile]

/-- Parsing one intact frame succeeds and prepends its record. -/
theorem recoverLoop_frame (r : ManifestRecord) (rest : List Nat)
    (h : (encRecord r).length < 2 ^ 32) :
    recoverLoop (recordFrame r ++ rest) =
      match recoverLoop rest with
      | .ok rs => .ok (r :: rs)
      | other => other := by
  have hmod : (encRecord r).length % 2 ^ 32 = (encRecord r).length := Nat.mod_eq_of_lt h
  have hgu : getU32 (recordFrame r ++ rest) = (encRecord r).length := by
    rw [recordFrame, List.append_assoc, List.append_assoc,
      getU32_u32be_append _ _ (Nat.mod_lt _ (by norm_num)), hmod]
  have hdrop4 : (recordFrame r ++ rest).drop 4
      = encRecord r ++ (u32be (crc32 (encRecord r)) ++ rest) := by
    rw [recordFrame, List.append_assoc, List.append_assoc,
      show (4 : Nat) = (u32be ((encRecord r).length % 2 ^ 32)).length from rfl]
    exact List.drop_left _ _
  have htake : (encRecord r ++ (u32be (crc32 (encRecord r)) ++ rest)).take (encRecord r).length
      = encRecord r := List.take_left _ _
  have hdropLen : (encRecord r ++ (u32be (crc32 (encRecord r)) ++ rest)).drop (encRecord r).length
      = u32be (crc32 (encRecord r)) ++ rest := List.drop_left _ _
  have hne : recordFrame r ++ rest ≠ [] := by
    rw [recordFrame]
    simp [u32be]
  have hlen : (recordFrame r ++ rest).length = 8 + (encRecord r).length + rest.length := by
    rw [recordFrame]
    simp [u32be]
    omega
  have hcrc : crc32 (encRecord r) < 2 ^ 32 := crc32_lt (encRecord_bytes_lt32 r)
  conv_lhs => unfold recoverLoop
  rw [if_neg hne, if_neg (by omega : ¬(recordFrame r ++ rest).length < 4), hgu, hdrop4]
  rw [if_neg (by simp : ¬(encRecord r).length
    > (encRecord r ++ (u32be (crc32 (encRecord r)) ++ rest)).length)]
  rw [htake, hdropLen, decodeRecordFull_enc r]
  have hlt4 : ¬(u32be (crc32 (encRecord r)) ++ rest).length < 4 := by simp [u32be]
  have hgucrc : getU32 (u32be (crc32 (encRecord r)) ++ rest) = crc32 (encRecord r) :=
    getU32_u32be_append _ _ hcrc
  have hdropc : (u32be (crc32 (encRecord r)) ++ rest).drop 4 = rest := by
    rw [show (4 : Nat) = (u32be (crc32 (encRecord r))).length from rfl]
    exact List.drop_left _ _
  simp only [hlt4, hgucrc, hdropc, ne_eq, eq_self_iff_true, not_true, if_false, if_true]

theorem recoverLoop_manifestFile (rs : List ManifestRecord)
    (h : ∀ r ∈ rs, (encRecord r).length < 2 ^ 32) :
    recoverLoop (manifestFile rs) = .ok rs := by
  induction rs with
  | nil =>
    have : manifestFile [] = [] := rfl
    rw [this]
    unfold recoverLoop
    simp
  | cons r rest ih =>
    rw [manifestFile_cons, recoverLoop_frame r _ (h r (by simp)),
      ih (fun x hx => h x (by simp [hx]))]

/-! ## Lemmas: manifest corruption -/

theorem manifestFile_append (rs1 rs2 : List ManifestRecord) :
    manifestFile (rs1 ++ rs2) = manifestFile rs1 ++ manifestFile rs2 := by
  simp [manifestFile]

theorem set_append_add (a b : List Nat) (n x : Nat) :
    (a ++ b).set (a.length + n) x = a ++ b.set n x := by
  rw [List.set_append, if_neg (by omega), Nat.add_sub_cancel_left]

theorem set_append_lt (a b : List Nat) (n x : Nat) (h : n < a.length) :
    (a ++ b).set n x = a.set n x ++ b := by
  rw [List.set_append, if_pos h]

/-- Replacing one payload byte changes the CRC-32 of the payload. -/
theorem crc32_set_ne (r : ManifestRecord) (p b' : Nat)
    (hp : p < (encRecord r).length) (hb : b' < 256)
    (hne : b' ≠ (encRecord r).get ⟨p, hp⟩) :
    crc32 ((encRecord r).set p b') ≠ crc32 (encRecord r) := by
  have hsplitL : encRecord r
      = (encRecord r).take p ++ (encRecord r).get ⟨p, hp⟩ :: (encRecord r).drop (p + 1) := by
    conv_lhs => rw [← List.take_append_drop p (encRecord r)]
    rw [List.drop_eq_getElem_cons hp]
    rfl
  have hsplitS : (encRecord r).set p b'
      = (encRecord r).take p ++ b' :: (encRecord r).drop (p + 1) := by
    rw [List.set_eq_take_append_cons_drop, if_pos hp]
  rw [hsplitS]
  conv_rhs => rw [hsplitL]
  exact crc32_single_byte_ne
    (fun x hx => encRecord_bytes_lt32 r x (List.take_subset _ _ hx))
    (fun x hx => encRecord_bytes_lt32 r x (List.drop_subset _ _ hx))
    (lt_trans hb (by norm_num))
    (encRecord_bytes_lt32 r _ (List.get_mem _ _ hp))
    hne

/-- Replaying a frame whose payload has one substituted byte yields an error
return (deserialization failure or checksum mismatch). -/
theorem recoverLoop_corrupt_frame (r : ManifestRecord) (rest : List Nat)
    (p b' : Nat) (hp : p < (encRecord r).length) (hb : b' < 256)
    (hne : b' ≠ (encRecord r).get ⟨p, hp⟩)
    (h : (encRecord r).length < 2 ^ 32) :
    (recoverLoop (corruptFrame r p b' ++ rest)).isErr = true := by
  have hmod : (encRecord r).length % 2 ^ 32 = (encRecord r).length := Nat.mod_eq_of_lt h
  have hsetlen : ((encRecord r).set p b').length = (encRecord r).length :=
    List.length_set _ _ _
  have hgu : getU32 (corruptFrame r p b' ++ rest) = (encRecord r).length := by
    rw [corruptFrame, List.append_assoc,
      getU32_u32be_append _ _ (Nat.mod_lt _ (by norm_num)), hmod]
  have hdrop4 : (corruptFrame r p b' ++ rest).drop 4
      = (encRecord r).set p b' ++ (u32be (crc32 (encRecord r)) ++ rest) := by
    rw [corruptFrame, List.append_assoc, List.append_assoc,
      show (4 : Nat) = (u32be ((encRecord r).length % 2 ^ 32)).length from rfl]
    exact List.drop_left _ _
  have htake : ((encRecord r).set p b' ++ (u32be (crc32 (encRecord r)) ++ rest)).take
      (encRecord r).length = (encRecord r).set p b' := by
    rw [← hsetlen]
    exact List.take_left _ _
  have hdropLen : ((encRecord r).set p b' ++ (u32be (crc32 (encRecord r)) ++ rest)).drop
      (encRecord r).length = u32be (crc32 (encRecord r)) ++ rest := by
    rw [← hsetlen]
    exact List.drop_left _ _
  have hnenil : corruptFrame r p b' ++ rest ≠ [] := by
    rw [corruptFrame]
    simp [u32be]
  have hlen : (corruptFrame r p b' ++ rest).length
      = 8 + (encRecord r).length + rest.length := by
    rw [corruptFrame]
    simp [u32be, hsetlen]
    omega
  have hcrc : crc32 (encRecord r) < 2 ^ 32 := crc32_lt (encRecord_bytes_lt32 r)
  conv_lhs => unfold recoverLoop
  rw [if_neg hnenil, if_neg (by omega : ¬(corruptFrame r p b' ++ rest).length < 4), hgu,
    hdrop4]
  rw [if_neg (by simp [hsetlen] : ¬(encRecord r).length
    > ((encRecord r).set p b' ++ (u32be (crc32 (encRecord r)) ++ rest)).length)]
  rw [htake, hdropLen]
  cases hdec : decodeRecordFull ((encRecord r).set p b') with
  | none => rfl
  | some r2 =>
    have hlt4 : ¬(u32be (crc32 (encRecord r)) ++ rest).length < 4 := by simp [u32be]
    have hgucrc : getU32 (u32be (crc32 (encRecord r)) ++ rest) = crc32 (encRecord r) :=
      getU32_u32be_append _ _ hcrc
    have hcond : crc32 (encRecord r) ≠ crc32 ((encRecord r).set p b') :=
      fun hc => crc32_set_ne r p b' hp hb hne hc.symm
    simp [hlt4, hgucrc, hcond, RecoverResult.isErr]
    rw [if_neg (by
      simp only [u32be, List.length_cons, List.length_nil]
      omega : ¬(u32be (crc32 (encRecord r))).length + rest.length < 4)]

/-- A replay error behind a run of intact frames is still a replay error. -/
theorem recoverLoop_append_isErr (rs : List ManifestRecord) (x : List Nat)
    (h : ∀ r ∈ rs, (encRecord r).length < 2 ^ 32)
    (hx : (recoverLoop x).isErr = true) :
    (recoverLoop (manifestFile rs ++ x)).isErr = true := by
  induction rs with
  | nil => simpa [manifestFile]
  | cons r rest ih =>
    rw [manifestFile_cons, List.append_assoc, recoverLoop_frame r _ (h r (by simp))]
    have hrec := ih (fun y hy => h y (by simp [hy]))
    cases hres : recoverLoop (manifestFile rest ++ x) with
    | ok rs2 => rw [hres] at hrec; exact absurd hrec (by simp [RecoverResult.isErr])
    | err e => rfl
    | crash => rw [hres] at hrec; exact absurd hrec (by simp [RecoverResult.isErr])

/-! ## Lemmas: recovery totality on structurally complete buffers -/

theorem recoverLoop_nil : recoverLoop [] = .ok [] := by
  unfold recoverLoop
  simp

theorem recoverLoop_total_aux : ∀ (n : Nat) (buf : List Nat), buf.length ≤ n →
    framesOk buf = true →
    (∃ rs, recoverLoop buf = .ok rs) ∨ (∃ e, recoverLoop buf = .err e) := by
  intro n
  induction n with
  | zero =>
    intro buf hle _
    have hb : buf = [] := List.length_eq_zero.mp (Nat.le_zero.mp hle)
    subst hb
    exact Or.inl ⟨[], recoverLoop_nil⟩
  | succ n ih =>
    intro buf hle hok
    by_cases hbnil : buf = []
    · subst hbnil
      exact Or.inl ⟨[], recoverLoop_nil⟩
    · unfold framesOk at hok
      rw [if_neg hbnil] at hok
      unfold recoverLoop
      rw [if_neg hbnil]
      by_cases h4 : buf.length < 4
      · rw [if_pos h4] at hok
        exact absurd hok (by simp)
      · rw [if_neg h4] at hok ⊢
        by_cases hover : getU32 buf > (buf.drop 4).length
        · rw [if_pos hover] at hok
          exact absurd hok (by simp)
        · rw [if_neg hover] at hok ⊢
          by_cases hck : ((buf.drop 4).drop (getU32 buf)).length < 4
          · rw [if_pos hck] at hok
            exact absurd hok (by simp)
          · rw [if_neg hck] at hok
            have hlen' : (((buf.drop 4).drop (getU32 buf)).drop 4).length ≤ n := by
              simp only [List.length_drop]
              have : buf.length ≠ 0 := fun h0 => hbnil (List.length_eq_zero.mp h0)
              omega
            cases hdec : decodeRecordFull ((buf.drop 4).take (getU32 buf)) with
            | none => exact Or.inr ⟨.deserialize, rfl⟩
            | some r =>
              by_cases hcs : getU32 ((buf.drop 4).drop (getU32 buf))
                  ≠ crc32 ((buf.drop 4).take (getU32 buf))
              · simp only [List.drop_drop, List.length_drop] at hck hcs
                exact Or.inr ⟨.checksum, by simp [hck, hcs]⟩
              · have hcs' : getU32 ((buf.drop 4).drop (getU32 buf))
                    = crc32 ((buf.drop 4).take (getU32 buf)) := not_ne_iff.mp hcs
                rcases ih _ hlen' hok with ⟨rs, hrs⟩ | ⟨e, he⟩
                · simp only [List.drop_drop, List.length_drop] at hck hcs' hrs
                  exact Or.inl ⟨r :: rs, by simp [hck, hcs', hrs]⟩
                · simp only [List.drop_drop, List.length_drop] at hck hcs' he
                  exact Or.inr ⟨e, by simp [hck, hcs', he]⟩

/-! ## Lemmas: tiered compaction triggers -/

theorem sumSizes_take_succ (levels : List (Nat × List Nat)) (k : Nat)
    (h : k < levels.length) :
    sumSizes (levels.take (k + 1))
      = sumSizes (levels.take k) + tierSize (levels.get ⟨k, h⟩) := by
  unfold sumSizes
  rw [List.map_take, List.map_take, List.sum_take_succ (levels.map tierSize) k (by simpa)]
  congr 1
  simp

theorem getD_eq_get (levels : List (Nat × List Nat)) (i : Nat) (h : i < levels.length) :
    levels.getD i (0, []) = levels.get ⟨i, h⟩ := by
  simp [List.getD_eq_getElem?_getD, List.getElem?_eq_getElem h]

theorem get_eq_getElem_pair (levels : List (Nat × List Nat)) (k : Nat)
    (h : k < levels.length) : levels.get ⟨k, h⟩ = levels[k] := rfl

theorem scanTail_spec_some (opts : TieredCompactionOptions)
    (levels : List (Nat × List Nat)) (i : Nat) (hi : i < levels.length)
    (hcond : sizeRatioCond opts levels i) :
    ∀ d k, 1 ≤ k → k + d = i →
      (∀ j, k ≤ j → j < i → ¬sizeRatioCond opts levels j) →
      scanTail opts k (sumSizes (levels.take k) : ℚ) (levels.drop k) = some i := by
  intro d
  induction d with
  | zero =>
    intro k _ hk _
    have hk' : k = i := by omega
    subst hk'
    rw [List.drop_eq_getElem_cons hi]
    unfold scanTail
    rw [if_pos]
    rcases hcond with ⟨h1, h2⟩
    rw [getD_eq_get levels k hi] at h1
    exact ⟨h1, h2⟩
  | succ d ihd =>
    intro k hk1 hk hnone
    have hkl : k < levels.length := by omega
    rw [List.drop_eq_getElem_cons hkl]
    unfold scanTail
    rw [if_neg]
    · have hsum : (sumSizes (levels.take k) : ℚ) + (tierSize levels[k] : ℚ)
          = (sumSizes (levels.take (k + 1)) : ℚ) := by
        rw [sumSizes_take_succ levels k hkl]
        push_cast
        rw [get_eq_getElem_pair]
      rw [hsum]
      exact ihd (k + 1) (by omega) (by omega)
        (fun j hj1 hj2 => hnone j (by omega) hj2)
    · intro hc
      refine hnone k (le_refl k) (by omega) ?_
      unfold sizeRatioCond
      rw [getD_eq_get levels k hkl]
      exact hc

theorem scanTail_spec_none (opts : TieredCompactionOptions)
    (levels : List (Nat × List Nat)) :
    ∀ d k, 1 ≤ k → k + d = levels.length →
      (∀ j, k ≤ j → j < levels.length → ¬sizeRatioCond opts levels j) →
      scanTail opts k (sumSizes (levels.take k) : ℚ) (levels.drop k) = none := by
  intro d
  induction d with
  | zero =>
    intro k _ hk _
    rw [List.drop_eq_nil_of_le (by omega)]
    rfl
  | succ d ihd =>
    intro k hk1 hk hnone
    have hkl : k < levels.length := by omega
    rw [List.drop_eq_getElem_cons hkl]
    unfold scanTail
    rw [if_neg]
    · have hsum : (sumSizes (levels.take k) : ℚ) + (tierSize levels[k] : ℚ)
          = (sumSizes (levels.take (k + 1)) : ℚ) := by
        rw [sumSizes_take_succ levels k hkl]
        push_cast
        rw [get_eq_getElem_pair]
      rw [hsum]
      exact ihd (k + 1) (by omega) (by omega)
        (fun j hj1 hj2 => hnone j (by omega) hj2)
    · intro hc
      refine hnone k (le_refl k) hkl ?_
      unfold sizeRatioCond
      rw [getD_eq_get levels k hkl]
      exact hc

theorem sumSizes_take_one (x : Nat × List Nat) (rest : List (Nat × List Nat)) :
    sumSizes ((x :: rest).take 1) = tierSize x := by
  simp [sumSizes]

theorem generate_space_amp (opts : TieredCompactionOptions)
    (levels : List (Nat × List Nat)) (hguard : opts.num_tiers ≤ levels.length)
    (hamp : spaceAmpRatio levels ≥ (opts.max_size_amplification_percent : ℚ)) :
    generate_compaction_task opts levels = some ⟨levels, true⟩ := by
  unfold generate_compaction_task
  rw [if_neg (by omega), if_pos hamp]

theorem generate_size_ratio (opts : TieredCompactionOptions)
    (levels : List (Nat × List Nat)) (i : Nat)
    (hguard : opts.num_tiers ≤ levels.length)
    (hamp : ¬spaceAmpRatio levels ≥ (opts.max_size_amplification_percent : ℚ))
    (h1 : 1 ≤ i) (hi : i < levels.length)
    (hcond : sizeRatioCond opts levels i)
    (hfirst : ∀ j, 1 ≤ j → j < i → ¬sizeRatioCond opts levels j) :
    generate_compaction_task opts levels = some ⟨levels.take i, false⟩ := by
  cases levels with
  | nil => simp at hi
  | cons x rest =>
    have hscan := scanTail_spec_some opts (x :: rest) i hi hcond (i - 1) 1 (le_refl 1)
      (by omega) (fun j hj1 hj2 => hfirst j hj1 hj2)
    rw [sumSizes_take_one] at hscan
    unfold generate_compaction_task
    rw [if_neg (by simp at hguard ⊢; omega), if_neg hamp]
    rw [show scanTail opts 1 (tierSize ((x :: rest).headD (0, [])) : ℚ) (x :: rest).tail
      = some i from hscan]

theorem generate_none_iff (opts : TieredCompactionOptions)
    (levels : List (Nat × List Nat)) :
    generate_compaction_task opts levels = none ↔ levels.length < opts.num_tiers := by
  unfold generate_compaction_task
  by_cases hg : levels.length < opts.num_tiers
  · simp [hg]
  · rw [if_neg hg]
    by_cases hamp : spaceAmpRatio levels ≥ (opts.max_size_amplification_percent : ℚ)
    · simp [hamp, hg]
    · rw [if_neg hamp]
      cases hscan : scanTail opts 1 (tierSize (levels.headD (0, [])) : ℚ) levels.tail with
      | some i => simp [hg]
      | none => simp [hg]

theorem generate_fallback (opts : TieredCompactionOptions)
    (levels : List (Nat × List Nat))
    (hguard : opts.num_tiers ≤ levels.length)
    (hamp : ¬spaceAmpRatio levels ≥ (opts.max_size_amplification_percent : ℚ))
    (hscan : scanTail opts 1 (tierSize (levels.headD (0, [])) : ℚ) levels.tail = none) :
    generate_compaction_task opts levels
      = some ⟨levels.take ((opts.max_merge_width.getD (2 ^ 64 - 1)).min levels.length),
          decide ((opts.max_merge_width.getD (2 ^ 64 - 1)).min levels.length
            ≥ levels.length)⟩ := by
  unfold generate_compaction_task
  rw [if_neg (by omega), if_neg hamp, hscan]

/-! ## Lemmas: the tier map of `apply_compaction_result` -/

theorem keys_cons (tid : Nat) (files : List Nat) (rest : List (Nat × List Nat)) :
    keys ((tid, files) :: rest) = tid :: keys rest := rfl

theorem mem_keys_iff (tid : Nat) (m : List (Nat × List Nat)) :
    tid ∈ keys m ↔ ∃ fs, (tid, fs) ∈ m := by
  unfold keys
  constructor
  · intro h
    obtain ⟨p, hp, hfst⟩ := List.mem_map.mp h
    exact ⟨p.2, by rwa [show (tid, p.2) = p from Prod.ext hfst.symm rfl]⟩
  · rintro ⟨fs, hfs⟩
    exact List.mem_map.mpr ⟨(tid, fs), hfs, rfl⟩

theorem lookupFiles_eq_none (tid : Nat) (m : List (Nat × List Nat))
    (h : tid ∉ keys m) : lookupFiles tid m = none := by
  unfold lookupFiles
  rw [List.find?_eq_none.mpr]
  · rfl
  · intro q hq hbeq
    have hq1 : q.1 = tid := by simpa using hbeq
    exact h ((mem_keys_iff tid m).mpr ⟨q.2, by
      rwa [show (tid, q.2) = q from Prod.ext hq1.symm rfl]⟩)

theorem lookupFiles_eq_some (tid : Nat) (fs : List Nat) (m : List (Nat × List Nat))
    (hnd : (keys m).Nodup) (hmem : (tid, fs) ∈ m) : lookupFiles tid m = some fs := by
  induction m with
  | nil => simp at hmem
  | cons q rest ih =>
    obtain ⟨a, b⟩ := q
    rw [keys_cons] at hnd
    by_cases ha : a = tid
    · subst ha
      have hb : b = fs := by
        rcases List.mem_cons.mp hmem with heq | hmem2
        · injection heq with h1 h2
          exact h2.symm
        · exact absurd ((mem_keys_iff a rest).mpr ⟨fs, hmem2⟩) (List.nodup_cons.mp hnd).1
      subst hb
      unfold lookupFiles
      simp [List.find?_cons_of_pos]
    · have hmem2 : (tid, fs) ∈ rest := by
        rcases List.mem_cons.mp hmem with heq | hmem2
        · exact absurd (congrArg Prod.fst heq).symm ha
        · exact hmem2
      have := ih (List.nodup_cons.mp hnd).2 hmem2
      unfold lookupFiles at this ⊢
      rw [List.find?_cons_of_neg _ (by simpa using ha)]
      exact this

theorem mem_removeKey (p : Nat × List Nat) (tid : Nat) (m : List (Nat × List Nat)) :
    p ∈ removeKey tid m ↔ p ∈ m ∧ p.1 ≠ tid := by
  unfold removeKey
  simp [List.mem_filter]

theorem keys_removeKey (tid : Nat) (m : List (Nat × List Nat)) :
    keys (removeKey tid m) = (keys m).filter (fun x => x != tid) := by
  unfold keys removeKey
  induction m with
  | nil => rfl
  | cons q rest ih =>
    by_cases hq : q.1 = tid
    · simp [List.filter_cons, hq, ih]
    · simp [List.filter_cons, hq, ih]

theorem keys_removeKey_erase (tid : Nat) (m : List (Nat × List Nat))
    (hnd : (keys m).Nodup) : keys (removeKey tid m) = (keys m).erase tid := by
  rw [keys_removeKey, List.Nodup.erase_eq_filter hnd]

theorem keys_removeKey_nodup (tid : Nat) (m : List (Nat × List Nat))
    (hnd : (keys m).Nodup) : (keys (removeKey tid m)).Nodup := by
  rw [keys_removeKey]
  exact hnd.filter _

theorem buildMap_aux (ts : List (Nat × List Nat)) :
    ∀ m, (∀ p ∈ m, ∀ q ∈ ts, p.1 ≠ q.1) → (keys ts).Nodup →
      ts.foldl insertKV m = m ++ ts := by
  induction ts with
  | nil => intro m _ _; simp
  | cons t rest ih =>
    intro m hdisj hnd
    rw [keys_cons t.1 t.2 rest] at hnd
    simp only [List.foldl_cons]
    have hins : insertKV m t = m ++ [t] := by
      unfold insertKV
      congr 1
      exact List.filter_eq_self.mpr (fun q hq => by
        simpa using hdisj q hq t (by simp))
    rw [hins, ih (m ++ [t]) ?_ (List.nodup_cons.mp hnd).2]
    · rw [List.append_assoc]
      rfl
    · intro p hp q hq
      rcases List.mem_append.mp hp with hpm | hpt
      · exact hdisj p hpm q (by simp [hq])
      · have : p = t := by simpa using hpt
        subst this
        intro heq
        exact (List.nodup_cons.mp hnd).1 ((mem_keys_iff p.1 rest).mpr ⟨q.2, by
          rwa [show (p.1, q.2) = q from Prod.ext heq rfl]⟩)

theorem buildMap_eq (ts : List (Nat × List Nat)) (hnd : (keys ts).Nodup) :
    buildMap ts = ts := by
  unfold buildMap
  rw [buildMap_aux ts [] (by simp) hnd]
  rfl

theorem applyLoop_empty_map (out : List Nat) (ls : List (Nat × List Nat)) :
    applyLoop out ls [] true = .ok ls [] := by
  induction ls with
  | nil => rfl
  | cons t rest ih =>
    obtain ⟨tid, files⟩ := t
    simp [applyLoop, lookupFiles, ih, ApplyResult.mapOk]

theorem applySpec_nil_pending (out : List Nat) (ls : List (Nat × List Nat)) :
    applySpec out [] ls = (ls, []) := by
  induction ls with
  | nil => rfl
  | cons t rest ih =>
    obtain ⟨tid, files⟩ := t
    simp [applySpec, ih]

/-- The source walk agrees with the specification walk whenever the task's
tiers form a nonempty key-distinct sub-association of the snapshot. -/
theorem applyLoop_eq_spec (out' : List Nat) (o : Nat) :
    ∀ (ls : List (Nat × List Nat)), ∀ (m : List (Nat × List Nat)),
      (keys ls).Nodup → (keys m).Nodup → m ≠ [] → (∀ p ∈ m, p ∈ ls) →
      applyLoop (o :: out') ls m false
        = .ok (applySpec (o :: out') (keys m) ls).1
              (applySpec (o :: out') (keys m) ls).2 := by
  intro ls
  induction ls with
  | nil =>
    intro m _ _ hne hsub
    obtain ⟨p, hp⟩ := List.exists_mem_of_ne_nil m hne
    exact absurd (hsub p hp) (List.not_mem_nil p)
  | cons t rest ih =>
    obtain ⟨tid, files⟩ := t
    intro m hndls hndm hne hsub
    rw [keys_cons] at hndls
    by_cases htid : tid ∈ keys m
    · obtain ⟨fs, hfs⟩ := (mem_keys_iff tid m).mp htid
      have hfseq : fs = files := by
        rcases List.mem_cons.mp (hsub _ hfs) with heq | hmem
        · exact congrArg Prod.snd heq
        · exact absurd ((mem_keys_iff tid rest).mpr ⟨fs, hmem⟩)
            (List.nodup_cons.mp hndls).1
      subst hfseq
      have hlook : lookupFiles tid m = some fs := lookupFiles_eq_some tid fs m hndm hfs
      by_cases hrm : removeKey tid m = []
      · have hkeyserase : (keys m).erase tid = [] := by
          have hh := keys_removeKey_erase tid m hndm
          rw [hrm] at hh
          exact hh.symm
        simp [applyLoop, hlook, hrm, applyLoop_empty_map, ApplyResult.mapOk,
          applySpec, htid, hkeyserase, applySpec_nil_pending]
      · have hkeyserase : keys (removeKey tid m) = (keys m).erase tid :=
          keys_removeKey_erase tid m hndm
        have herase_ne : (keys m).erase tid ≠ [] := by
          rw [← hkeyserase]
          intro h
          exact hrm (List.map_eq_nil_iff.mp h)
        have hsub' : ∀ p ∈ removeKey tid m, p ∈ rest := by
          intro p hp
          obtain ⟨hpm, hptid⟩ := (mem_removeKey p tid m).mp hp
          rcases List.mem_cons.mp (hsub p hpm) with heq | hmem
          · exact absurd (congrArg Prod.fst heq) hptid
          · exact hmem
        have hrec := ih (removeKey tid m) (List.nodup_cons.mp hndls).2
          (keys_removeKey_nodup tid m hndm) hrm hsub'
        rw [hkeyserase] at hrec
        simp [applyLoop, hlook, hrm, hrec, ApplyResult.mapOk, applySpec, htid,
          herase_ne]
    · have hlook : lookupFiles tid m = none := lookupFiles_eq_none tid m htid
      have hsub' : ∀ p ∈ m, p ∈ rest := by
        intro p hp
        rcases List.mem_cons.mp (hsub p hp) with heq | hmem
        · exact absurd ((mem_keys_iff tid m).mpr ⟨p.2,
            by rwa [show (tid, p.2) = p from Prod.ext (congrArg Prod.fst heq).symm rfl]⟩)
            htid
        · exact hmem
      have hrec := ih m (List.nodup_cons.mp hndls).2 hndm hne hsub'
      simp [applyLoop, hlook, hne, hrec, ApplyResult.mapOk, applySpec, htid]

/-- The removed-table-id list of the specification walk is the concatenation,
in snapshot order, of the table ids of the tiers whose id the task selects. -/
theorem applySpec_removed (out : List Nat) :
    ∀ (ls : List (Nat × List Nat)) (pending : List Nat), (keys ls).Nodup →
      (applySpec out pending ls).2
        = ((ls.filter (fun l => decide (l.1 ∈ pending))).map (·.2)).flatten := by
  intro ls
  induction ls with
  | nil =>
    intro pending _
    simp [applySpec]
  | cons t rest ih =>
    obtain ⟨tid, files⟩ := t
    intro pending hnd
    rw [keys_cons] at hnd
    by_cases htid : tid ∈ pending
    · have hfilter : rest.filter (fun l => decide (l.1 ∈ pending.erase tid))
          = rest.filter (fun l => decide (l.1 ∈ pending)) := by
        apply List.filter_congr
        intro q hq
        have hq1 : q.1 ∈ keys rest :=
          (mem_keys_iff q.1 rest).mpr ⟨q.2, by rwa [show (q.1, q.2) = q from rfl]⟩
        have hqtid : q.1 ≠ tid := fun heq => (List.nodup_cons.mp hnd).1 (heq ▸ hq1)
        simp [List.mem_erase_of_ne hqtid]
      simp [applySpec, htid, ih (pending.erase tid) (List.nodup_cons.mp hnd).2,
        hfilter, List.filter_cons]
    · simp [applySpec, htid, ih pending (List.nodup_cons.mp hnd).2, List.filter_cons]

/-- The method `apply_compaction_result` returns, per the specification walk, the
spliced snapshot and the removed table ids, for any nonempty key-distinct
task matching the snapshot and nonempty output. -/
theorem apply_eq_spec (levels : List (Nat × List Nat)) (task : TieredCompactionTask)
    (out : List Nat) (hndl : (keys levels).Nodup) (hndt : (keys task.tiers).Nodup)
    (htne : task.tiers ≠ []) (hone : out ≠ [])
    (hsub : ∀ p ∈ task.tiers, p ∈ levels) :
    apply_compaction_result levels task out
      = .ok (applySpec out (keys task.tiers) levels).1
            (applySpec out (keys task.tiers) levels).2 := by
  obtain ⟨o, out', rfl⟩ := List.exists_cons_of_ne_nil hone
  unfold apply_compaction_result
  rw [buildMap_eq task.tiers hndt]
  exact applyLoop_eq_spec out' o levels task.tiers hndl hndt htne hsub

/-! ## Lemmas: fatal conditions of `apply_compaction_result` -/

theorem isFatal_mapOk (f : List (Nat × List Nat) → List Nat → List (Nat × List Nat) × List Nat)
    (x : ApplyResult) : (x.mapOk f).isFatal = x.isFatal := by
  cases x <;> rfl

/-- If some map entry's key never occurs in the remaining snapshot, the walk
ends in one of the two fatal aborts. -/
theorem applyLoop_fatal_absent :
    ∀ (ls : List (Nat × List Nat)), ∀ (m : List (Nat × List Nat)) (out : List Nat)
      (added : Bool) (p : Nat × List Nat),
      p ∈ m → p.1 ∉ keys ls → (applyLoop out ls m added).isFatal = true := by
  intro ls
  induction ls with
  | nil =>
    intro m out added p hp _
    have hne : m ≠ [] := fun h => by simp [h] at hp
    simp [applyLoop, hne, ApplyResult.isFatal]
  | cons t rest ih =>
    obtain ⟨tid, files⟩ := t
    intro m out added p hp hkeys
    rw [keys_cons] at hkeys
    have hptid : p.1 ≠ tid := fun h => hkeys (by simp [h])
    have hprest : p.1 ∉ keys rest := fun h => hkeys (by simp [h])
    cases hlook : lookupFiles tid m with
    | none =>
      have hne : m ≠ [] := fun h => by simp [h] at hp
      simp [applyLoop, hlook, hne, isFatal_mapOk, ih m out added p hp hprest]
    | some ffiles =>
      by_cases hf : files = ffiles
      · have hpm' : p ∈ removeKey tid m := (mem_removeKey p tid m).mpr ⟨hp, hptid⟩
        have hne' : removeKey tid m ≠ [] := fun h => by simp [h] at hpm'
        simp [applyLoop, hlook, hf, hne', isFatal_mapOk,
          ih (removeKey tid m) out added p hpm' hprest]
      · simp [applyLoop, hlook, hf, ApplyResult.isFatal]

/-- If some map entry disagrees with the snapshot's table-id list for the
same tier id, the walk ends in one of the two fatal aborts. -/
theorem applyLoop_fatal_mismatch :
    ∀ (ls : List (Nat × List Nat)), ∀ (m : List (Nat × List Nat)) (out : List Nat)
      (added : Bool) (tid : Nat) (fl fl' : List Nat),
      (keys ls).Nodup → (keys m).Nodup → (tid, fl) ∈ m → (tid, fl') ∈ ls → fl ≠ fl' →
      (applyLoop out ls m added).isFatal = true := by
  intro ls
  induction ls with
  | nil =>
    intro m out added tid fl fl' _ _ _ hmem _
    simp at hmem
  | cons t rest ih =>
    obtain ⟨hid, hfiles⟩ := t
    intro m out added tid fl fl' hndls hndm hm hls hneq
    rw [keys_cons] at hndls
    by_cases hhid : hid = tid
    · subst hhid
      have hfl' : hfiles = fl' := by
        rcases List.mem_cons.mp hls with heq | hmem
        · exact (congrArg Prod.snd heq).symm
        · exact absurd ((mem_keys_iff _ rest).mpr ⟨fl', hmem⟩)
            (List.nodup_cons.mp hndls).1
      have hlook : lookupFiles hid m = some fl := lookupFiles_eq_some _ fl m hndm hm
      have hcond : hfiles ≠ fl := by
        rw [hfl']
        exact fun h => hneq h.symm
      simp [applyLoop, hlook, hcond, ApplyResult.isFatal]
    · have hls' : (tid, fl') ∈ rest := by
        rcases List.mem_cons.mp hls with heq | hmem
        · exact absurd (congrArg Prod.fst heq).symm hhid
        · exact hmem
      cases hlook : lookupFiles hid m with
      | none =>
        have hne : m ≠ [] := fun h => by simp [h] at hm
        simp [applyLoop, hlook, hne, isFatal_mapOk,
          ih m out added tid fl fl' (List.nodup_cons.mp hndls).2 hndm hm hls' hneq]
      | some ffiles =>
        by_cases hf : hfiles = ffiles
        · have hm' : (tid, fl) ∈ removeKey hid m :=
            (mem_removeKey _ hid m).mpr ⟨hm, fun h => hhid h.symm⟩
          have hne' : removeKey hid m ≠ [] := fun h => by simp [h] at hm'
          simp [applyLoop, hlook, hf, hne', isFatal_mapOk,
            ih (removeKey hid m) out added tid fl fl' (List.nodup_cons.mp hndls).2
              (keys_removeKey_nodup hid m hndm) hm' hls' hneq]
        · simp [applyLoop, hlook, hf, ApplyResult.isFatal]

/-- Under the precondition that every map entry occurs in the snapshot with
an equal table-id list, the walk never reaches either fatal abort. -/
theorem applyLoop_not_fatal :
    ∀ (ls : List (Nat × List Nat)), ∀ (m : List (Nat × List Nat)) (out : List Nat)
      (added : Bool),
      (keys ls).Nodup → (keys m).Nodup → (∀ p ∈ m, p ∈ ls) →
      (applyLoop out ls m added).isFatal = false := by
  intro ls
  induction ls with
  | nil =>
    intro m out added _ _ hsub
    have hm : m = [] := by
      cases m with
      | nil => rfl
      | cons p r => exact absurd (hsub p (by simp)) (List.not_mem_nil p)
    subst hm
    simp [applyLoop, ApplyResult.isFatal]
  | cons t rest ih =>
    obtain ⟨tid, files⟩ := t
    intro m out added hndls hndm hsub
    rw [keys_cons] at hndls
    by_cases htid : tid ∈ keys m
    · obtain ⟨fs, hfs⟩ := (mem_keys_iff tid m).mp htid
      have hfseq : fs = files := by
        rcases List.mem_cons.mp (hsub _ hfs) with heq | hmem
        · exact congrArg Prod.snd heq
        · exact absurd ((mem_keys_iff tid rest).mpr ⟨fs, hmem⟩)
            (List.nodup_cons.mp hndls).1
      subst hfseq
      have hlook : lookupFiles tid m = some fs := lookupFiles_eq_some tid fs m hndm hfs
      have hsub' : ∀ p ∈ removeKey tid m, p ∈ rest := by
        intro p hp
        obtain ⟨hpm, hptid⟩ := (mem_removeKey p tid m).mp hp
        rcases List.mem_cons.mp (hsub p hpm) with heq | hmem
        · exact absurd (congrArg Prod.fst heq) hptid
        · exact hmem
      by_cases hrm : removeKey tid m = []
      · cases added with
        | false =>
          cases out with
          | nil => simp [applyLoop, hlook, hrm, ApplyResult.isFatal]
          | cons o os =>
            simp [applyLoop, hlook, hrm, applyLoop_empty_map, isFatal_mapOk,
              ApplyResult.isFatal, ApplyResult.mapOk]
        | true =>
          simp [applyLoop, hlook, hrm, applyLoop_empty_map, isFatal_mapOk,
            ApplyResult.isFatal, ApplyResult.mapOk]
      · simp [applyLoop, hlook, hrm, isFatal_mapOk,
          ih (removeKey tid m) out added (List.nodup_cons.mp hndls).2
            (keys_removeKey_nodup tid m hndm) hsub']
    · have hlook : lookupFiles tid m = none := lookupFiles_eq_none tid m htid
      have hsub' : ∀ p ∈ m, p ∈ rest := by
        intro p hp
        rcases List.mem_cons.mp (hsub p hp) with heq | hmem
        · exact absurd ((mem_keys_iff tid m).mpr ⟨p.2,
            by rwa [show (tid, p.2) = p from Prod.ext (congrArg Prod.fst heq).symm rfl]⟩)
            htid
        · exact hmem
      by_cases hm : m = []
      · subst hm
        cases added with
        | false =>
          cases out with
          | nil => simp [applyLoop, hlook, ApplyResult.isFatal]
          | cons o os =>
            simp [applyLoop, hlook, applyLoop_empty_map, isFatal_mapOk,
              ApplyResult.isFatal, ApplyResult.mapOk]
        | true =>
          simp [applyLoop, hlook, applyLoop_empty_map, isFatal_mapOk,
            ApplyResult.isFatal, ApplyResult.mapOk]
      · simp [applyLoop, hlook, hm, isFatal_mapOk,
          ih m out added (List.nodup_cons.mp hndls).2 hndm hsub']

/-! ## Lemmas: block builder -/

theorem u16be_length (n : Nat) : (u16be n).length = 2 := rfl

theorem rawEntry_length (k v : List Nat) :
    (rawEntry k v).length = 4 + k.length + v.length := by
  simp [rawEntry, u16be]
  omega

theorem encEntries_append (a b : List (List Nat × List Nat)) :
    encEntries (a ++ b) = encEntries a ++ encEntries b := by
  simp [encEntries]

theorem encEntries_cons (k v : List Nat) (rest : List (List Nat × List Nat)) :
    encEntries ((k, v) :: rest) = rawEntry k v ++ encEntries rest := by
  simp [encEntries]

theorem startsFrom_length (off : Nat) (ps : List (List Nat × List Nat)) :
    (startsFrom off ps).length = ps.length := by
  induction ps generalizing off with
  | nil => rfl
  | cons p rest ih =>
    obtain ⟨k, v⟩ := p
    simp [startsFrom, ih]

theorem startsFrom_append_one (off : Nat) (ps : List (List Nat × List Nat))
    (k v : List Nat) :
    startsFrom off (ps ++ [(k, v)])
      = startsFrom off ps ++ [off + (encEntries ps).length] := by
  induction ps generalizing off with
  | nil => simp [startsFrom, encEntries]
  | cons p rest ih =>
    obtain ⟨k2, v2⟩ := p
    have h1 : startsFrom off (((k2, v2) :: rest) ++ [(k, v)])
        = off :: startsFrom (off + (rawEntry k2 v2).length) (rest ++ [(k, v)]) := rfl
    have h2 : startsFrom off ((k2, v2) :: rest)
        = off :: startsFrom (off + (rawEntry k2 v2).length) rest := rfl
    rw [h1, ih, h2, encEntries_cons]
    simp [List.length_append, Nat.add_assoc]

theorem encEntries_ne_nil (k v : List Nat) (rest : List (List Nat × List Nat)) :
    encEntries ((k, v) :: rest) ≠ [] := by
  rw [encEntries_cons]
  simp [rawEntry, u16be]

/-- Running the `add` sequence from a builder state that already holds the
entries `done`: every further entry is accepted, and the data and offset
sections grow exactly as the spec describes, provided the final projected
size stays under the target and the final data size fits the 16-bit offset
and length fields. -/
theorem addAll_spec (bs : Nat) :
    ∀ (todo done : List (List Nat × List Nat)) (fk : List Nat),
      (encEntries (done ++ todo)).length + 2 * (done ++ todo).length + 2 < bs →
      (encEntries (done ++ todo)).length < 2 ^ 16 →
      ∃ fk2, addAll ⟨startsFrom 0 done, encEntries done, bs, fk⟩ todo
        = (true, ⟨startsFrom 0 (done ++ todo), encEntries (done ++ todo), bs, fk2⟩) := by
  intro todo
  induction todo with
  | nil =>
    intro done fk _ _
    exact ⟨fk, by simp [addAll]⟩
  | cons p rest ih =>
    obtain ⟨k, v⟩ := p
    intro done fk hfit hlen
    have hsplit : encEntries (done ++ (k, v) :: rest)
        = encEntries done ++ rawEntry k v ++ encEntries rest := by
      rw [show done ++ (k, v) :: rest = (done ++ [(k, v)]) ++ rest by simp,
        encEntries_append, encEntries_append]
      simp [encEntries]
    have hraw : (rawEntry k v).length = 4 + k.length + v.length := rawEntry_length k v
    have hlensum : (encEntries (done ++ (k, v) :: rest)).length
        = (encEntries done).length + (4 + k.length + v.length)
          + (encEntries rest).length := by
      rw [hsplit]
      simp [hraw]
      omega
    have hkfit : k.length < 2 ^ 16 := by
      rw [hlensum] at hlen
      omega
    have hvfit : v.length < 2 ^ 16 := by
      rw [hlensum] at hlen
      omega
    have hdfit : (encEntries done).length < 2 ^ 16 := by
      rw [hlensum] at hlen
      omega
    have hcount : (done ++ (k, v) :: rest).length
        = done.length + 1 + rest.length := by
      simp
      omega
    have hcond : ¬((⟨startsFrom 0 done, encEntries done, bs, fk⟩ :
        BlockBuilder).estimated_size + k.length + v.length + 3 * 2 ≥ bs) := by
      unfold BlockBuilder.estimated_size
      simp only [startsFrom_length]
      rw [hlensum, hcount] at hfit
      omega
    have hoff : (encEntries done).length % 2 ^ 16 = (encEntries done).length :=
      Nat.mod_eq_of_lt hdfit
    have hkm : k.length % 2 ^ 16 = k.length := Nat.mod_eq_of_lt hkfit
    have hvm : v.length % 2 ^ 16 = v.length := Nat.mod_eq_of_lt hvfit
    have hstep : (⟨startsFrom 0 done, encEntries done, bs, fk⟩ :
        BlockBuilder).add k v
        = (true, ⟨startsFrom 0 (done ++ [(k, v)]), encEntries (done ++ [(k, v)]), bs,
            if (encEntries done).length = 0 then k else fk⟩) := by
      unfold BlockBuilder.add
      rw [if_neg (fun hc => hcond hc.1), hoff, hkm, hvm, startsFrom_append_one]
      simp [encEntries, rawEntry, List.append_assoc]
    have hassoc : (done ++ [(k, v)]) ++ rest = done ++ (k, v) :: rest := by simp
    obtain ⟨fk2, hrest⟩ := ih (done ++ [(k, v)])
      (if (encEntries done).length = 0 then k else fk)
      (by rw [hassoc]; exact hfit) (by rw [hassoc]; exact hlen)
    refine ⟨fk2, ?_⟩
    simp only [addAll, hstep, hrest, hassoc]
    simp

theorem framesOk_nil : framesOk [] = true := by
  unfold framesOk
  simp

theorem framesOk_frame (r : ManifestRecord) (rest : List Nat)
    (h : (encRecord r).length < 2 ^ 32) :
    framesOk (recordFrame r ++ rest) = framesOk rest := by
  have hmod : (encRecord r).length % 2 ^ 32 = (encRecord r).length := Nat.mod_eq_of_lt h
  have hgu : getU32 (recordFrame r ++ rest) = (encRecord r).length := by
    rw [recordFrame, List.append_assoc, List.append_assoc,
      getU32_u32be_append _ _ (Nat.mod_lt _ (by norm_num)), hmod]
  have hdrop4 : (recordFrame r ++ rest).drop 4
      = encRecord r ++ (u32be (crc32 (encRecord r)) ++ rest) := by
    rw [recordFrame, List.append_assoc, List.append_assoc,
      show (4 : Nat) = (u32be ((encRecord r).length % 2 ^ 32)).length from rfl]
    exact List.drop_left _ _
  have hdropLen : (encRecord r ++ (u32be (crc32 (encRecord r)) ++ rest)).drop
      (encRecord r).length = u32be (crc32 (encRecord r)) ++ rest := List.drop_left _ _
  have hne : recordFrame r ++ rest ≠ [] := by
    rw [recordFrame]
    simp [u32be]
  have hlen : (recordFrame r ++ rest).length = 8 + (encRecord r).length + rest.length := by
    rw [recordFrame]
    simp [u32be]
    omega
  conv_lhs => unfold framesOk
  rw [if_neg hne, if_neg (by omega : ¬(recordFrame r ++ rest).length < 4), hgu, hdrop4]
  rw [if_neg (by simp : ¬(encRecord r).length
    > (encRecord r ++ (u32be (crc32 (encRecord r)) ++ rest)).length)]
  rw [hdropLen]
  rw [if_neg (by simp [u32be] : ¬(u32be (crc32 (encRecord r)) ++ rest).length < 4)]
  rw [show (u32be (crc32 (encRecord r)) ++ rest).drop 4 = rest from by
    rw [show (4 : Nat) = (u32be (crc32 (encRecord r))).length from rfl]
    exact List.drop_left _ _]

theorem framesOk_manifestFile (rs : List ManifestRecord)
    (h : ∀ r ∈ rs, (encRecord r).length < 2 ^ 32) :
    framesOk (manifestFile rs) = true := by
  induction rs with
  | nil => exact framesOk_nil
  | cons r rest ih =>
    rw [manifestFile_cons, framesOk_frame r _ (h r (by simp))]
    exact ih (fun x hx => h x (by simp [hx]))

/-! ## Claims -/

/-- Claim C1: Manifest round-trip — for every sequence of records, writing
them in order via `add_record_when_init` to a freshly created manifest (each
append framed as a 4-byte length, the serialized record bytes, and a 4-byte
CRC32 of those bytes) and then calling `recover` on the same path returns
exactly those records, in the original order, each equal to the record that
was written.  The hypothesis keeps each serialized record below `2 ^ 32`
bytes so the `len as u32` cast of the length prefix is lossless. -/
theorem manifest_roundtrip_claim (rs : List ManifestRecord)
    (h : ∀ r ∈ rs, (encRecord r).length < 2 ^ 32) :
    recoverLoop (manifestFile rs) = .ok rs :=
  recoverLoop_manifestFile rs h

theorem manifest_roundtrip_claim_witness :
    recoverLoop (manifestFile
      [.flush 3, .newMemtable 5, .compaction ⟨[(1, [2, 3])], true⟩ [4]])
      = .ok [.flush 3, .newMemtable 5, .compaction ⟨[(1, [2, 3])], true⟩ [4]] :=
  manifest_roundtrip_claim _ (by decide)

/-- Claim C2: space-amplification trigger and its priority — whenever the
snapshot has at least `num_tiers` tiers and the total table count of all
tiers except the last, divided by the last tier's table count, times 100, is
at least `max_size_amplification_percent` (equality included),
`generate_compaction_task` returns the task holding all tiers in order with
`bottom_tier_included = true`; the second conjunct shows a concrete snapshot
on which the size-ratio condition also holds and the space-amplification
task still wins. -/
theorem space_amp_trigger_claim :
    (∀ (opts : TieredCompactionOptions) (levels : List (Nat × List Nat)),
      opts.num_tiers ≤ levels.length →
      0 < tierSize (levels.getLastD (0, [])) →
      spaceAmpRatio levels ≥ (opts.max_size_amplification_percent : ℚ) →
      generate_compaction_task opts levels = some ⟨levels, true⟩)
    ∧ (sizeRatioCond ⟨2, 25, 100, 1, none⟩ [(1, [10]), (2, [20, 21, 22, 23])] 1
        ∧ generate_compaction_task ⟨2, 25, 100, 1, none⟩
            [(1, [10]), (2, [20, 21, 22, 23])]
            = some ⟨[(1, [10]), (2, [20, 21, 22, 23])], true⟩) := by
  refine ⟨fun opts levels hg _ hamp => generate_space_amp opts levels hg hamp, ?_, ?_⟩
  · norm_num [sizeRatioCond, tierSize, sumSizes, List.getD]
  · exact generate_space_amp _ _ (by decide)
      (by norm_num [spaceAmpRatio, sumExceptLast, sumSizes, tierSize, List.getLastD])

theorem space_amp_trigger_claim_witness :
    generate_compaction_task ⟨3, 200, 100, 2, none⟩ [(7, [1]), (8, [2]), (9, [3])]
      = some ⟨[(7, [1]), (8, [2]), (9, [3])], true⟩ :=
  space_amp_trigger_claim.1 ⟨3, 200, 100, 2, none⟩ [(7, [1]), (8, [2]), (9, [3])]
    (by decide) (by decide)
    (by norm_num [spaceAmpRatio, sumExceptLast, sumSizes, tierSize, List.getLastD])

/-- Claim C3: size-ratio trigger with the exact accumulation order — with
the guard passed and the space-amplification trigger not firing, the first
index `i ≥ 1` at which the tier's table count divided by the running sum of
the counts of tiers `0 .. i-1` strictly exceeds `(100 + size_ratio) / 100`
while `i ≥ min_merge_width` makes `generate_compaction_task` return exactly
the tiers at indices `0 .. i-1` with `bottom_tier_included = false`; for
sizes `[10, 10, 25]` with `size_ratio = 100`, `min_merge_width = 2` the scan
does not trigger (`25 / 20 = 1.25`), while sizes `[10, 10, 50]` trigger at
index 2 (`50 / 20 = 2.5 > 2`), selecting the first two tiers. -/
theorem size_ratio_trigger_claim :
    (∀ (opts : TieredCompactionOptions) (levels : List (Nat × List Nat)) (i : Nat),
      opts.num_tiers ≤ levels.length →
      ¬spaceAmpRatio levels ≥ (opts.max_size_amplification_percent : ℚ) →
      1 ≤ i → i < levels.length →
      sizeRatioCond opts levels i →
      (∀ j, 1 ≤ j → j < i → ¬sizeRatioCond opts levels j) →
      generate_compaction_task opts levels = some ⟨levels.take i, false⟩)
    ∧ scanTail ⟨3, 200, 100, 2, none⟩ 1 (10 : ℚ)
        [(1, List.range 10), (2, List.range 25)] = none
    ∧ generate_compaction_task ⟨3, 200, 100, 2, none⟩
        [(0, List.range 10), (1, List.range 10), (2, List.range 50)]
        = some ⟨[(0, List.range 10), (1, List.range 10)], false⟩ := by
  refine ⟨generate_size_ratio, ?_, ?_⟩
  · norm_num [scanTail, tierSize, List.length_range]
  · have h := generate_size_ratio ⟨3, 200, 100, 2, none⟩
      [(0, List.range 10), (1, List.range 10), (2, List.range 50)] 2
      (by decide)
      (by norm_num [spaceAmpRatio, sumExceptLast, sumSizes, tierSize, List.getLastD,
        List.length_range])
      (by decide) (by decide)
      (by norm_num [sizeRatioCond, tierSize, sumSizes, List.getD, List.length_range])
      (fun j h1 h2 => by
        interval_cases j
        norm_num [sizeRatioCond, tierSize, sumSizes, List.getD, List.length_range])
    simpa using h

theorem size_ratio_trigger_claim_witness :
    generate_compaction_task ⟨3, 200, 100, 2, none⟩
      [(0, List.range 10), (1, List.range 10), (2, List.range 50)]
      = some ⟨([(0, List.range 10), (1, List.range 10), (2, List.range 50)]).take 2,
          false⟩ :=
  size_ratio_trigger_claim.1 ⟨3, 200, 100, 2, none⟩
    [(0, List.range 10), (1, List.range 10), (2, List.range 50)] 2
    (by decide)
    (by norm_num [spaceAmpRatio, sumExceptLast, sumSizes, tierSize, List.getLastD,
      List.length_range])
    (by decide) (by decide)
    (by norm_num [sizeRatioCond, tierSize, sumSizes, List.getD, List.length_range])
    (fun j h1 h2 => by
      interval_cases j
      norm_num [sizeRatioCond, tierSize, sumSizes, List.getD, List.length_range])

/-- Claim C4: fallback tier-count reduction — with at least one configured
tier (`num_tiers ≥ 1`, the regime in which the embedding is faithful),
`generate_compaction_task` returns nothing exactly when the snapshot has
fewer than `num_tiers` tiers, and when neither the space-amplification nor
the size-ratio trigger fires it returns the first
`min(max_merge_width or unbounded, tier_count)` tiers with
`bottom_tier_included` true iff that selection reaches the last tier. -/
theorem fallback_reduction_claim (opts : TieredCompactionOptions)
    (levels : List (Nat × List Nat)) (_hnum : 1 ≤ opts.num_tiers) :
    (generate_compaction_task opts levels = none ↔ levels.length < opts.num_tiers)
    ∧ (opts.num_tiers ≤ levels.length →
       ¬spaceAmpRatio levels ≥ (opts.max_size_amplification_percent : ℚ) →
       scanTail opts 1 (tierSize (levels.headD (0, [])) : ℚ) levels.tail = none →
       generate_compaction_task opts levels
         = some ⟨levels.take ((opts.max_merge_width.getD (2 ^ 64 - 1)).min levels.length),
             decide ((opts.max_merge_width.getD (2 ^ 64 - 1)).min levels.length
               ≥ levels.length)⟩) :=
  ⟨generate_none_iff opts levels,
    fun hg hamp hscan => generate_fallback opts levels hg hamp hscan⟩

theorem fallback_reduction_claim_witness :
    generate_compaction_task ⟨2, 300, 100, 3, some 2⟩ [(0, [1]), (1, [2]), (2, [3])]
      = some ⟨[(0, [1]), (1, [2])], false⟩ := by
  have h := (fallback_reduction_claim ⟨2, 300, 100, 3, some 2⟩
    [(0, [1]), (1, [2]), (2, [3])] (by decide)).2 (by decide)
    (by norm_num [spaceAmpRatio, sumExceptLast, sumSizes, tierSize, List.getLastD])
    (by norm_num [scanTail, tierSize])
  simpa using h

/-- Claim C5: `apply_compaction_result` postcondition — for every snapshot
with distinct tier ids, nonempty key-distinct task whose tiers all occur in
the snapshot with matching table-id lists, and nonempty output list, the
result is the specification walk's snapshot (original tiers with every task
tier dropped, the others unchanged and in order, and exactly one new tier
keyed by the first output table id holding all output table ids, spliced in
where the task's tier set becomes fully consumed), and the removed-id list
is the concatenation of the removed tiers' table ids in snapshot order; in
particular the task selecting tiers `{1, 2}` from
`[(0,[10]),(1,[11]),(2,[12])]` with output `[13]` yields
`[(0,[10]),(13,[13])]` and removed ids `[11,12]`. -/
theorem apply_compaction_result_claim :
    (∀ (levels : List (Nat × List Nat)) (task : TieredCompactionTask) (out : List Nat),
      (keys levels).Nodup → (keys task.tiers).Nodup → task.tiers ≠ [] → out ≠ [] →
      (∀ p ∈ task.tiers, p ∈ levels) →
      apply_compaction_result levels task out
        = .ok (applySpec out (keys task.tiers) levels).1
              (applySpec out (keys task.tiers) levels).2
      ∧ (applySpec out (keys task.tiers) levels).2
          = ((levels.filter (fun l => decide (l.1 ∈ keys task.tiers))).map (·.2)).flatten)
    ∧ apply_compaction_result [(0, [10]), (1, [11]), (2, [12])]
        ⟨[(1, [11]), (2, [12])], false⟩ [13]
        = .ok [(0, [10]), (13, [13])] [11, 12] := by
  constructor
  · intro levels task out h1 h2 h3 h4 h5
    exact ⟨apply_eq_spec levels task out h1 h2 h3 h4 h5,
      applySpec_removed out levels (keys task.tiers) h1⟩
  · decide

theorem apply_compaction_result_claim_witness :
    apply_compaction_result [(0, [10]), (1, [11]), (2, [12])]
        ⟨[(1, [11]), (2, [12])], false⟩ [13]
      = .ok (applySpec [13] (keys [(1, [11]), (2, [12])])
              [(0, [10]), (1, [11]), (2, [12])]).1
            (applySpec [13] (keys [(1, [11]), (2, [12])])
              [(0, [10]), (1, [11]), (2, [12])]).2 :=
  (apply_compaction_result_claim.1 [(0, [10]), (1, [11]), (2, [12])]
    ⟨[(1, [11]), (2, [12])], false⟩ [13]
    (by decide) (by decide) (by decide) (by decide) (by decide)).1

/-- Claim C6: `apply_compaction_result` fatal conditions — the operation
ends in one of the two fatal aborts (`assert_eq!` panic or `unreachable!`)
whenever some task tier id is absent from the snapshot, or whenever a task
tier's recorded table-id list differs from the snapshot's list for that id;
conversely, when every task tier occurs in the snapshot with an equal
table-id list, neither fatal branch is reachable. -/
theorem apply_fatal_conditions_claim :
    (∀ (levels : List (Nat × List Nat)) (task : TieredCompactionTask) (out : List Nat)
       (tid : Nat) (fl : List Nat),
      (keys task.tiers).Nodup → (tid, fl) ∈ task.tiers → tid ∉ keys levels →
      (apply_compaction_result levels task out).isFatal = true)
    ∧ (∀ (levels : List (Nat × List Nat)) (task : TieredCompactionTask) (out : List Nat)
       (tid : Nat) (fl fl' : List Nat),
      (keys levels).Nodup → (keys task.tiers).Nodup →
      (tid, fl) ∈ task.tiers → (tid, fl') ∈ levels → fl ≠ fl' →
      (apply_compaction_result levels task out).isFatal = true)
    ∧ (∀ (levels : List (Nat × List Nat)) (task : TieredCompactionTask) (out : List Nat),
      (keys levels).Nodup → (keys task.tiers).Nodup →
      (∀ p ∈ task.tiers, p ∈ levels) →
      (apply_compaction_result levels task out).isFatal = false) := by
  refine ⟨?_, ?_, ?_⟩
  · intro levels task out tid fl hnd hmem habs
    unfold apply_compaction_result
    rw [buildMap_eq task.tiers hnd]
    exact applyLoop_fatal_absent levels task.tiers out false (tid, fl) hmem habs
  · intro levels task out tid fl fl' hndl hndt hm hls hne
    unfold apply_compaction_result
    rw [buildMap_eq task.tiers hndt]
    exact applyLoop_fatal_mismatch levels task.tiers out false tid fl fl' hndl hndt
      hm hls hne
  · intro levels task out hndl hndt hsub
    unfold apply_compaction_result
    rw [buildMap_eq task.tiers hndt]
    exact applyLoop_not_fatal levels task.tiers out false hndl hndt hsub

theorem apply_fatal_conditions_claim_witness :
    (apply_compaction_result [(0, [2])] ⟨[(5, [1])], true⟩ [9]).isFatal = true :=
  apply_fatal_conditions_claim.1 [(0, [2])] ⟨[(5, [1])], true⟩ [9] 5 [1]
    (by decide) (by decide) (by decide)

/-- Claim C7: corruption detection — for every manifest file produced by a
sequence of successful appends, replacing any single byte inside any written
record's serialized payload by a different byte value makes `recover` return
an error (a deserialization failure or a checksum mismatch); it never
returns a record list.  The first conjunct identifies the modified file with
the prefix frames, the corrupted frame, and the suffix frames. -/
theorem manifest_corruption_claim (rs1 rs2 : List ManifestRecord) (r : ManifestRecord)
    (p b' : Nat) (hp : p < (encRecord r).length) (hb : b' < 256)
    (hne : b' ≠ (encRecord r).get ⟨p, hp⟩)
    (hlen : ∀ x ∈ rs1 ++ r :: rs2, (encRecord x).length < 2 ^ 32) :
    (manifestFile (rs1 ++ r :: rs2)).set ((manifestFile rs1).length + (4 + p)) b'
      = manifestFile rs1 ++ (corruptFrame r p b' ++ manifestFile rs2)
    ∧ (recoverLoop ((manifestFile (rs1 ++ r :: rs2)).set
        ((manifestFile rs1).length + (4 + p)) b')).isErr = true := by
  have hfile : manifestFile (rs1 ++ r :: rs2)
      = manifestFile rs1 ++ (recordFrame r ++ manifestFile rs2) := by
    rw [manifestFile_append, manifestFile_cons]
  have hsetframe : (recordFrame r ++ manifestFile rs2).set (4 + p) b'
      = corruptFrame r p b' ++ manifestFile rs2 := by
    simp only [recordFrame, corruptFrame, List.append_assoc]
    rw [show (4 : Nat) + p = (u32be ((encRecord r).length % 2 ^ 32)).length + p from by
      rw [u32be_length]]
    rw [set_append_add]
    congr 1
    exact set_append_lt (encRecord r) _ p b' hp
  have h1 : (manifestFile (rs1 ++ r :: rs2)).set ((manifestFile rs1).length + (4 + p)) b'
      = manifestFile rs1 ++ (corruptFrame r p b' ++ manifestFile rs2) := by
    rw [hfile, set_append_add, hsetframe]
  refine ⟨h1, ?_⟩
  rw [h1]
  exact recoverLoop_append_isErr rs1 _ (fun x hx => hlen x (by simp [hx]))
    (recoverLoop_corrupt_frame r (manifestFile rs2) p b' hp hb hne (hlen r (by simp)))

theorem manifest_corruption_claim_witness :
    (manifestFile ([] ++ ManifestRecord.flush 3 :: [])).set
        ((manifestFile []).length + (4 + 1)) 4
      = manifestFile [] ++ (corruptFrame (ManifestRecord.flush 3) 1 4 ++ manifestFile [])
    ∧ (recoverLoop ((manifestFile ([] ++ ManifestRecord.flush 3 :: [])).set
        ((manifestFile []).length + (4 + 1)) 4)).isErr = true :=
  manifest_corruption_claim [] [] (.flush 3) 1 4 (by decide) (by decide) (by decide)
    (by decide)

/-- Claim C8 (corrected): recovery totality — the claim as stated fails:
`recover` does not return an error value on every byte content; a file whose
frame structure is incomplete makes the replay loop read past the end of the
buffer, which panics (`Buf::get_u32` / slice indexing), e.g. the one-byte
file `[0]`. -/
theorem recover_totality_counterexample :
    recoverLoop [0] = .crash ∧ RecoverResult.crash.isErr = false := by
  constructor
  · unfold recoverLoop
    simp
  · rfl

/-- Claim C8 (amended): for every byte content whose
`[length][payload][checksum]` frames are structurally complete, `recover`
either returns the fully parsed record list or returns a typed error value
(deserialization failure or checksum mismatch) — never a partial record set;
a structurally incomplete file panics instead of returning an error. -/
theorem recover_totality_amended (buf : List Nat) (h : framesOk buf = true) :
    (∃ rs, recoverLoop buf = .ok rs) ∨ (∃ e, recoverLoop buf = .err e) :=
  recoverLoop_total_aux buf.length buf (le_refl _) h

theorem recover_totality_amended_witness :
    (∃ rs, recoverLoop (manifestFile [ManifestRecord.flush 3]) = .ok rs)
    ∨ (∃ e, recoverLoop (manifestFile [ManifestRecord.flush 3]) = .err e) :=
  recover_totality_amended (manifestFile [ManifestRecord.flush 3])
    (framesOk_manifestFile [ManifestRecord.flush 3] (by decide))

/-- Claim C9 (corrected): the claim as stated fails — offsets are stored as
`u16` (`data.len() as u16`), so once the data section passes `2 ^ 16` bytes
an offset silently truncates: with `target_block_size = 100000`, adding
`([0], 70000 zero bytes)` and then `([1], [])` is fully accepted, yet the
built block's second offset is `70005 % 2 ^ 16 = 4469`, not the true entry
start `70005`. -/
theorem block_cex_aux (v : List Nat) (hv : v.length = 70000) :
    (addAll (BlockBuilder.new 100000) [([0], v), ([1], [])]).1 = true
    ∧ (addAll (BlockBuilder.new 100000) [([0], v), ([1], [])]).2.offsets = [0, 4469]
    ∧ startsFrom 0 [([0], v), ([1], [])] = [0, 70005] := by
  have h1 : (BlockBuilder.new 100000).add [0] v
      = (true, ⟨[0], [] ++ u16be 1 ++ [0] ++ u16be 4464 ++ v, 100000, [0]⟩) := by
    unfold BlockBuilder.new BlockBuilder.add BlockBuilder.estimated_size BlockBuilder.is_empty
    rw [if_neg (fun hc => by simpa using hc.2)]
    rw [hv]
    norm_num
  have h2a : ((⟨[0], [] ++ u16be 1 ++ [0] ++ u16be 4464 ++ v, 100000, [0]⟩ :
      BlockBuilder).add [1] []).1 = true := by
    unfold BlockBuilder.add BlockBuilder.estimated_size BlockBuilder.is_empty
    rw [if_neg (fun hc => by
      have := hc.1
      simp [u16be, hv] at this)]
  have h2b : ((⟨[0], [] ++ u16be 1 ++ [0] ++ u16be 4464 ++ v, 100000, [0]⟩ :
      BlockBuilder).add [1] []).2.offsets = [0, 4469] := by
    unfold BlockBuilder.add BlockBuilder.estimated_size BlockBuilder.is_empty
    rw [if_neg (fun hc => by
      have := hc.1
      simp [u16be, hv] at this)]
    simp [u16be, hv]
  refine ⟨?_, ?_, ?_⟩
  · simp only [addAll, h1, h2a]
    rfl
  · simp only [addAll, h1]
    exact h2b
  · simp [startsFrom, rawEntry, u16be, hv]

/-- Claim C9, the concrete failing run. -/
theorem block_build_counterexample :
    (addAll (BlockBuilder.new 100000)
      [([0], List.replicate 70000 0), ([1], [])]).1 = true
    ∧ (addAll (BlockBuilder.new 100000)
        [([0], List.replicate 70000 0), ([1], [])]).2.offsets = [0, 4469]
    ∧ startsFrom 0 [([0], List.replicate 70000 0), ([1], [])] = [0, 70005]
    ∧ ([0, 4469] : List Nat) ≠ [0, 70005] := by
  obtain ⟨a, b, c⟩ := block_cex_aux (List.replicate 70000 0) (List.length_replicate _ _)
  exact ⟨a, b, c, by decide⟩

/-- Claim C9 (amended): block build contract — for every sequence of `add`
calls with strictly increasing keys whose total projected size stays under
`target_block_size` and whose total data size fits the 16-bit offset and
length fields, every `add` returns accepted, and `build` returns a `Block`
whose data is exactly the entries concatenated in insertion order (each
entry encoded as a 2-byte key length, the key bytes, a 2-byte value length,
the value bytes) and whose offsets hold exactly one entry per pair, each
equal to that entry's starting byte offset in the data; `build` on an empty
builder fails fatally instead of returning a `Block`. -/
theorem block_build_amended (bs : Nat) (pairs : List (List Nat × List Nat))
    (hinc : strictKeys pairs)
    (hfit : (encEntries pairs).length + 2 * pairs.length + 2 < bs)
    (hlen : (encEntries pairs).length < 2 ^ 16) :
    (addAll (BlockBuilder.new bs) pairs).1 = true
    ∧ (addAll (BlockBuilder.new bs) pairs).2.data = encEntries pairs
    ∧ (addAll (BlockBuilder.new bs) pairs).2.offsets = startsFrom 0 pairs
    ∧ (pairs ≠ [] → (addAll (BlockBuilder.new bs) pairs).2.build
        = some ⟨encEntries pairs, startsFrom 0 pairs⟩)
    ∧ BlockBuilder.build (BlockBuilder.new bs) = none := by
  obtain ⟨fk2, heq⟩ := addAll_spec bs pairs [] []
    (by simpa using hfit) (by simpa using hlen)
  have heq' : addAll (BlockBuilder.new bs) pairs
      = (true, ⟨startsFrom 0 pairs, encEntries pairs, bs, fk2⟩) := by
    have : (BlockBuilder.new bs)
        = (⟨startsFrom 0 [], encEntries [], bs, []⟩ : BlockBuilder) := rfl
    rw [this]
    simpa using heq
  refine ⟨by rw [heq'], by rw [heq'], by rw [heq'], ?_, rfl⟩
  intro hne
  obtain ⟨q, rest, rfl⟩ := List.exists_cons_of_ne_nil hne
  obtain ⟨k, v⟩ := q
  rw [heq']
  unfold BlockBuilder.build BlockBuilder.is_empty
  rw [if_neg (by simpa using encEntries_ne_nil k v rest)]

theorem block_build_amended_witness :
    (addAll (BlockBuilder.new 100) [([1], [7]), ([2], [8, 9])]).1 = true
    ∧ (addAll (BlockBuilder.new 100) [([1], [7]), ([2], [8, 9])]).2.data
        = encEntries [([1], [7]), ([2], [8, 9])]
    ∧ (addAll (BlockBuilder.new 100) [([1], [7]), ([2], [8, 9])]).2.offsets
        = startsFrom 0 [([1], [7]), ([2], [8, 9])]
    ∧ ([([1], [7]), ([2], [8, 9])] ≠ ([] : List (List Nat × List Nat)) →
        (addAll (BlockBuilder.new 100) [([1], [7]), ([2], [8, 9])]).2.build
          = some ⟨encEntries [([1], [7]), ([2], [8, 9])],
              startsFrom 0 [([1], [7]), ([2], [8, 9])]⟩)
    ∧ BlockBuilder.build (BlockBuilder.new 100) = none :=
  block_build_amended 100 [([1], [7]), ([2], [8, 9])]
    (by
      refine List.Pairwise.cons ?_ (List.pairwise_singleton _ _)
      intro y hy
      rw [List.mem_singleton.mp hy]
      exact List.Lex.rel (by norm_num))
    (by decide) (by decide)

/-- Claim C10: `add` acceptance condition and atomicity of rejection — for
every builder state and key-value pair, `add` returns `false` exactly when
the projected size (current data length, current offset-section length, the
2-byte entry-count field, this entry's key and value lengths, and three
2-byte overhead fields) meets or exceeds `target_block_size` while the
builder is non-empty; a rejected `add` leaves the builder completely
unchanged; and `add` on an empty builder always returns `true`. -/
theorem block_add_acceptance_claim (b : BlockBuilder) (k v : List Nat) :
    ((b.add k v).1 = false
      ↔ (b.estimated_size + k.length + v.length + 3 * 2 ≥ b.block_size
          ∧ ¬b.is_empty = true))
    ∧ ((b.add k v).1 = false → (b.add k v).2 = b)
    ∧ (b.is_empty = true → (b.add k v).1 = true) := by
  unfold BlockBuilder.add
  by_cases hc : b.estimated_size + k.length + v.length + 3 * 2 ≥ b.block_size
      ∧ ¬b.is_empty
  · rw [if_pos hc]
    exact ⟨by simpa using hc, fun _ => rfl, fun hemp => absurd hemp hc.2⟩
  · rw [if_neg hc]
    exact ⟨by simpa using hc, fun h => absurd h (by simp), fun _ => rfl⟩

theorem block_add_acceptance_claim_witness :
    ((⟨[0], [1, 2, 3, 4], 5, [1]⟩ : BlockBuilder).add [9] []).2
      = (⟨[0], [1, 2, 3, 4], 5, [1]⟩ : BlockBuilder) :=
  (block_add_acceptance_claim ⟨[0], [1, 2, 3, 4], 5, [1]⟩ [9] []).2.1 (by decide)

end Db0
